import Mathlib

/-
Verification of the TrguiNG file-selection tree model and action dispatch.

The tri-state file selection tree (`CachedFileTree` in the application) is
exercised here through a shallow embedding.  Paths are lists of segments
(the application splits on "/").  The implementation file of the tree
itself is not part of the supplied sources, only its callers are, so the
tree operations are modelled from the specification; `actions.ts` and the
`setPriority` payload construction are embedded from the source directly.
-/

set_option maxHeartbeats 1000000

/-- File priority levels low/normal/high. -/
inductive FilePriority where
  | low
  | normal
  | high
deriving DecidableEq, Repr

/-- Modelled from the spec: one record of the flat file list delivered by the
daemon (`path, size, bytesCompleted, wanted, priority`); the path is already
split on the delimiter. -/
structure FileRecord where
  path : List String
  size : Nat
  bytesCompleted : Nat
  wanted : Bool
  priority : FilePriority
deriving DecidableEq, Repr

/-- Modelled from the spec: the data stored at a leaf (`FileNode`) of the
missing `cachedfiletree.ts`: full path, stable parse-time index, sizes,
wanted flag, priority and the transient optimistic-UI flag. -/
structure FileData where
  fullPath : List String
  index : Nat
  size : Nat
  bytesCompleted : Nat
  wanted : Bool
  priority : FilePriority
  wantedUpdating : Bool
deriving DecidableEq, Repr

/-- Modelled from the spec: a node of the file tree of the missing
`cachedfiletree.ts`: a file leaf, or a directory with its full path and the
ordered list of children. -/
inductive FSNode where
  | file : FileData → FSNode
  | dir : List String → List FSNode → FSNode

/-- The full path stored at a node. -/
def nodePath : FSNode → List String
  | FSNode.file d => d.fullPath
  | FSNode.dir q _ => q

mutual

/-- All descendant leaves of a node, in tree order. -/
def nodeLeaves : FSNode → List FileData
  | FSNode.file d => [d]
  | FSNode.dir _ cs => forestLeaves cs

/-- All descendant leaves of a forest, in tree order. -/
def forestLeaves : List FSNode → List FileData
  | [] => []
  | c :: cs => nodeLeaves c ++ forestLeaves cs

end

mutual

/-- All full paths occurring in a node's subtree. -/
def nodePaths : FSNode → List (List String)
  | FSNode.file d => [d.fullPath]
  | FSNode.dir q cs => q :: forestPaths cs

/-- All full paths occurring in a forest. -/
def forestPaths : List FSNode → List (List String)
  | [] => []
  | c :: cs => nodePaths c ++ forestPaths cs

end

mutual

/-- All nodes of a node's subtree (the node itself included). -/
def nodeNodes : FSNode → List FSNode
  | FSNode.file d => [FSNode.file d]
  | FSNode.dir q cs => FSNode.dir q cs :: forestNodes cs

/-- All nodes of a forest. -/
def forestNodes : List FSNode → List FSNode
  | [] => []
  | c :: cs => nodeNodes c ++ forestNodes cs

end

mutual

/-- Every directory of the subtree has at least one child (parse never
creates empty directories). -/
def nodeNonEmpty : FSNode → Bool
  | FSNode.file _ => true
  | FSNode.dir _ cs => !cs.isEmpty && forestNonEmpty cs

/-- Every directory of the forest has at least one child. -/
def forestNonEmpty : List FSNode → Bool
  | [] => true
  | c :: cs => nodeNonEmpty c && forestNonEmpty cs

end

mutual

/-- Structural path consistency: each child's stored path extends its
parent directory's path by exactly one segment. -/
def nodeConsistent : FSNode → Bool
  | FSNode.file _ => true
  | FSNode.dir q cs => forestConsistent q cs

/-- Path consistency of a forest of children below a directory path `q`. -/
def forestConsistent (q : List String) : List FSNode → Bool
  | [] => true
  | c :: cs =>
      decide ((nodePath c).length = q.length + 1) && decide (q <+: nodePath c)
        && nodeConsistent c && forestConsistent q cs

end

/-- Well-formed root forest: every root has a one-segment path and a
path-consistent subtree.  Trees built by parse satisfy this. -/
def rootsWf : List FSNode → Bool
  | [] => true
  | c :: cs => decide ((nodePath c).length = 1) && nodeConsistent c && rootsWf cs

/-- Three-valued consensus accumulator used by the directory aggregation
fold: not seen yet, a common value so far, or mixed. -/
inductive Consensus (α : Type) where
  | unset
  | val (a : α)
  | mixed
deriving DecidableEq, Repr

/-- Modelled from the spec: one step of the consensus fold.  Start unset, on
the first child record its value, flip to mixed on any differing value (a
child that is itself mixed, reported as `none`, also flips to mixed). -/
def Consensus.push {α : Type} [DecidableEq α] : Consensus α → Option α → Consensus α
  | Consensus.unset, some a => Consensus.val a
  | Consensus.unset, none => Consensus.mixed
  | Consensus.mixed, _ => Consensus.mixed
  | Consensus.val a, some b => if a = b then Consensus.val a else Consensus.mixed
  | Consensus.val _, none => Consensus.mixed

/-- Pushing a list of plain values into the consensus accumulator. -/
def Consensus.pushList {α : Type} [DecidableEq α] : Consensus α → List α → Consensus α
  | acc, [] => acc
  | acc, a :: l => Consensus.pushList (acc.push (some a)) l

/-- The aggregate value exposed to the UI: `none` is the indeterminate
state (mixed, or a directory with no children). -/
def Consensus.toOption {α : Type} : Consensus α → Option α
  | Consensus.val a => some a
  | Consensus.unset => none
  | Consensus.mixed => none

mutual

/-- Modelled from the spec: the derived tri-state value of a node for a leaf
field projection `f` — a leaf reports its own value, a directory folds the
consensus over its children. -/
def nodeCons {α : Type} [DecidableEq α] (f : FileData → α) : FSNode → Option α
  | FSNode.file d => some (f d)
  | FSNode.dir _ cs => Consensus.toOption (forestCons f Consensus.unset cs)

/-- The consensus fold over a directory's children, left to right. -/
def forestCons {α : Type} [DecidableEq α] (f : FileData → α) :
    Consensus α → List FSNode → Consensus α
  | acc, [] => acc
  | acc, c :: cs => forestCons f (acc.push (nodeCons f c)) cs

end

mutual

/-- Modelled from the spec: derived directory size, the sum of the
descendant leaf sizes, recomputed on read. -/
def derivedSize : FSNode → Nat
  | FSNode.file d => d.size
  | FSNode.dir _ cs => forestSizes cs

/-- Sum of the derived sizes of a forest. -/
def forestSizes : List FSNode → Nat
  | [] => 0
  | c :: cs => derivedSize c + forestSizes cs

end

mutual

/-- Modelled from the spec: derived completed bytes, the sum over the
descendant leaves. -/
def derivedDone : FSNode → Nat
  | FSNode.file d => d.bytesCompleted
  | FSNode.dir _ cs => forestDone cs

/-- Sum of the derived completed bytes of a forest. -/
def forestDone : List FSNode → Nat
  | [] => 0
  | c :: cs => derivedDone c + forestDone cs

end

/-- Modelled from the spec: the derived `want` tri-state of a node. -/
def derivedWant (t : FSNode) : Option Bool := nodeCons (fun d => d.wanted) t

/-- Modelled from the spec: the derived priority of a node, `none` when the
descendant priorities are mixed. -/
def derivedPriority (t : FSNode) : Option FilePriority :=
  nodeCons (fun d => d.priority) t

/-- Modelled from the spec: parse-time failures — an empty path, or a
collision of two entries claiming the same full path. -/
inductive MalformedPathError where
  | emptyPath
  | collision
deriving DecidableEq, Repr

mutual

/-- Modelled from the spec: insert one flat record (with stable index `i`)
below the directory path `pre` into the sibling forest, building missing
intermediate directory nodes and failing on path collisions. -/
def insertSegs (r : FileRecord) (i : Nat) (pre : List String) :
    List String → List FSNode → Except MalformedPathError (List FSNode)
  | [], _ => Except.error MalformedPathError.emptyPath
  | [name], forest =>
      if forest.any (fun n => nodePath n = pre ++ [name]) then
        Except.error MalformedPathError.collision
      else
        Except.ok (forest ++ [FSNode.file
          { fullPath := pre ++ [name], index := i, size := r.size,
            bytesCompleted := r.bytesCompleted, wanted := r.wanted,
            priority := r.priority, wantedUpdating := false }])
  | name :: s :: rest, forest => insertScan r i pre name (s :: rest) forest
termination_by segs _ => (2 * segs.length, 0)

/-- Scan the sibling forest for the directory `pre ++ [name]`, descending
into it when found, creating it at the end otherwise, and failing when a
file already claims that path. -/
def insertScan (r : FileRecord) (i : Nat) (pre : List String) (name : String)
    (rest : List String) : List FSNode → Except MalformedPathError (List FSNode)
  | [] =>
      match insertSegs r i (pre ++ [name]) rest [] with
      | Except.error e => Except.error e
      | Except.ok cs => Except.ok [FSNode.dir (pre ++ [name]) cs]
  | FSNode.dir q cs :: ns =>
      if q = pre ++ [name] then
        match insertSegs r i (pre ++ [name]) rest cs with
        | Except.error e => Except.error e
        | Except.ok cs2 => Except.ok (FSNode.dir q cs2 :: ns)
      else
        match insertScan r i pre name rest ns with
        | Except.error e => Except.error e
        | Except.ok ns2 => Except.ok (FSNode.dir q cs :: ns2)
  | FSNode.file d :: ns =>
      if d.fullPath = pre ++ [name] then Except.error MalformedPathError.collision
      else
        match insertScan r i pre name rest ns with
        | Except.error e => Except.error e
        | Except.ok ns2 => Except.ok (FSNode.file d :: ns2)
termination_by forest => (2 * rest.length + 1, forest.length)

end

/-- Fold of `insertSegs` over the record list, numbering leaves from `i`. -/
def parseFrom : Nat → List FileRecord → List FSNode → Except MalformedPathError (List FSNode)
  | _, [], forest => Except.ok forest
  | i, r :: rs, forest =>
      match insertSegs r i [] r.path forest with
      | Except.error e => Except.error e
      | Except.ok forest2 => parseFrom (i + 1) rs forest2

/-- Modelled from the spec: build the tree once per torrent from the flat
file list, assigning stable numeric indices in list order; the whole batch
fails on a malformed path (no partial tree). -/
def parse (rs : List FileRecord) : Except MalformedPathError (List FSNode) :=
  parseFrom 0 rs []

mutual

/-- Modelled from the spec: resolve a path inside one subtree, returning the
node or an explicit not-found result, never failing. -/
def findEntryNode (p : List String) : FSNode → Option FSNode
  | FSNode.file d => if d.fullPath = p then some (FSNode.file d) else none
  | FSNode.dir q cs =>
      if q = p then some (FSNode.dir q cs) else findEntryForest p cs

/-- Modelled from the spec: `findEntry` over the whole forest. -/
def findEntryForest (p : List String) : List FSNode → Option FSNode
  | [] => none
  | c :: cs =>
      match findEntryNode p c with
      | some n => some n
      | none => findEntryForest p cs

end

mutual

/-- Cascade of `setWanted` below a directory: set every descendant leaf's
wanted flag to `s` and its transient updating flag to `u`. -/
def setAllWantedNode (s u : Bool) : FSNode → FSNode
  | FSNode.file d => FSNode.file { d with wanted := s, wantedUpdating := u }
  | FSNode.dir q cs => FSNode.dir q (setAllWantedForest s u cs)

/-- Cascade of `setWanted` over a forest. -/
def setAllWantedForest (s u : Bool) : List FSNode → List FSNode
  | [] => []
  | c :: cs => setAllWantedNode s u c :: setAllWantedForest s u cs

end

mutual

/-- Modelled from the spec: `setWanted(path, state, setUpdating)` — set a
leaf's wanted flag directly, or apply the state to every descendant leaf
when the path names a directory. -/
def setWantedNode (p : List String) (s u : Bool) : FSNode → FSNode
  | FSNode.file d =>
      if d.fullPath = p then FSNode.file { d with wanted := s, wantedUpdating := u }
      else FSNode.file d
  | FSNode.dir q cs =>
      if q = p then FSNode.dir q (setAllWantedForest s u cs)
      else FSNode.dir q (setWantedForest p s u cs)

/-- `setWanted` over the whole forest. -/
def setWantedForest (p : List String) (s u : Bool) : List FSNode → List FSNode
  | [] => []
  | c :: cs => setWantedNode p s u c :: setWantedForest p s u cs

end

/-- The per-leaf effect of a cascading `setWanted` on path `p`: leaves at or
below `p` get the new flags, all others are untouched. -/
def updWL (p : List String) (s u : Bool) (l : FileData) : FileData :=
  if p <+: l.fullPath then { l with wanted := s, wantedUpdating := u } else l

/-- Prefix substitution for a rename of the node at `old` to terminal
segment `name`: meaningful on paths extending `old`. -/
def substPath (old : List String) (name : String) (q : List String) : List String :=
  old.dropLast ++ name :: q.drop old.length

/-- Prefix substitution applied only to paths at or below `old`. -/
def substIf (old : List String) (name : String) (q : List String) : List String :=
  if old <+: q then substPath old name q else q

mutual

/-- Rewrite every stored path of a renamed subtree by prefix substitution. -/
def renameAllNode (old : List String) (name : String) : FSNode → FSNode
  | FSNode.file d => FSNode.file { d with fullPath := substPath old name d.fullPath }
  | FSNode.dir q cs => FSNode.dir (substPath old name q) (renameAllForest old name cs)

/-- Rewrite every stored path of a forest by prefix substitution. -/
def renameAllForest (old : List String) (name : String) : List FSNode → List FSNode
  | [] => []
  | c :: cs => renameAllNode old name c :: renameAllForest old name cs

end

mutual

/-- Modelled from the spec: `updatePath(old, name)` — recompute the full
path of the node at `old` and, for a directory, of every descendant, by
prefix substitution. -/
def updatePathNode (old : List String) (name : String) : FSNode → FSNode
  | FSNode.file d =>
      if d.fullPath = old then FSNode.file { d with fullPath := substPath old name d.fullPath }
      else FSNode.file d
  | FSNode.dir q cs =>
      if q = old then FSNode.dir (substPath old name q) (renameAllForest old name cs)
      else FSNode.dir q (updatePathForest old name cs)

/-- `updatePath` over the whole forest. -/
def updatePathForest (old : List String) (name : String) : List FSNode → List FSNode
  | [] => []
  | c :: cs => updatePathNode old name c :: updatePathForest old name cs

end

/-- Rename outcome reported to the caller. -/
inductive RenameOutcome where
  | renamed
  | renameFailed
deriving DecidableEq, Repr

/-- The rename flow of the `NameField` callback: the daemon acknowledgement
is `success`; only on success is the tree rewritten, on failure the tree is
left untouched and the failure is surfaced. -/
def renameTorrentPath (success : Bool) (old : List String) (name : String)
    (f : List FSNode) : List FSNode × RenameOutcome :=
  if success then (updatePathForest old name f, RenameOutcome.renamed)
  else (f, RenameOutcome.renameFailed)

/-- Modelled from the spec: merge one progress-tick record into a leaf —
`bytesCompleted`, `wanted` and `priority` are refreshed from the first
record whose path matches, unknown paths leave the leaf alone. -/
def updateLeaf (rs : List FileRecord) (d : FileData) : FileData :=
  match rs.find? (fun r => decide (r.path = d.fullPath)) with
  | some r => { d with bytesCompleted := r.bytesCompleted, wanted := r.wanted,
                       priority := r.priority }
  | none => d

mutual

/-- Modelled from the spec: the in-place progress-tick update of a subtree;
the directory skeleton is not rebuilt. -/
def updateNode (rs : List FileRecord) : FSNode → FSNode
  | FSNode.file d => FSNode.file (updateLeaf rs d)
  | FSNode.dir q cs => FSNode.dir q (updateForest rs cs)

/-- Progress-tick update of a forest. -/
def updateForest (rs : List FileRecord) : List FSNode → List FSNode
  | [] => []
  | c :: cs => updateNode rs c :: updateForest rs cs

end

mutual

/-- All leaf indexes of a subtree, in tree order. -/
def allIndexesNode : FSNode → List Nat
  | FSNode.file d => [d.index]
  | FSNode.dir _ cs => allIndexesForest cs

/-- All leaf indexes of a forest. -/
def allIndexesForest : List FSNode → List Nat
  | [] => []
  | c :: cs => allIndexesNode c ++ allIndexesForest cs

end

mutual

/-- Modelled from the spec: `getChildFilesIndexes(path)` restricted to one
subtree — the stable indices of the leaves under the path (the leaf's own
index for a leaf path). -/
def childIndexesNode (p : List String) : FSNode → List Nat
  | FSNode.file d => if d.fullPath = p then [d.index] else []
  | FSNode.dir q cs =>
      if q = p then allIndexesForest cs else childIndexesForest p cs

/-- `getChildFilesIndexes` over the whole forest. -/
def childIndexesForest (p : List String) : List FSNode → List Nat
  | [] => []
  | c :: cs => childIndexesNode p c ++ childIndexesForest p cs

end

/-- The full paths of all leaves of a forest. -/
def forestLeafPaths (f : List FSNode) : List (List String) :=
  (forestLeaves f).map (fun l => l.fullPath)

/-- Selection verbs of `selectAction`. -/
inductive SelectVerb where
  | set
  | add
deriving DecidableEq, Repr

/-- Modelled from the spec: `selectAction` — `set` replaces the ordered
selection, `add` unions the new ids into it preserving order. -/
def selectAction (v : SelectVerb) (ids : List (List String))
    (selected : List (List String)) : List (List String) :=
  match v with
  | SelectVerb.set => ids
  | SelectVerb.add => selected ++ ids.filter (fun p => decide (p ∉ selected))

/-- Insertion into a JavaScript `Set` seen as an order-preserving
duplicate-free list. -/
def setAdd (s : List Nat) (x : Nat) : List Nat :=
  if x ∈ s then s else s ++ [x]

/-- The bulk-priority payload built by `setPriority` in
`filetreetable.tsx`: fold the selected paths' index sets into one
JavaScript `Set`, then list it. -/
def collectFileIds (sel : List (List String)) (f : List FSNode) : List Nat :=
  (sel.map (fun p => childIndexesForest p f)).foldl
    (fun s cur => cur.foldl setAdd s) []

/-- A call made on the RPC client (`TransmissionClient`), recorded as data. -/
inductive ClientCall where
  | torrentAction (method : String) (torrentIds : List Nat)
  | torrentMove (torrentIds : List Nat) (location : String) (move : Bool)
deriving DecidableEq, Repr

/-- The `ActionController` of `actions.ts`: the RPC client is modelled by the
log of calls issued to it. -/
structure ActionController where
  selectedTorrents : List Nat
  torrents : List Nat
  calls : List ClientCall
deriving DecidableEq, Repr

/-- Extra arguments forwarded by `run`; only `changeDirectory` reads them. -/
structure ActionArgs where
  location : String
  move : Bool
deriving DecidableEq, Repr

/-- Effect of `client.torrentAction(method, torrentIds)` on the call log. -/
def clientTorrentAction (method : String) (ac : ActionController) : ActionController :=
  { ac with calls := ac.calls ++ [ClientCall.torrentAction method ac.selectedTorrents] }

/-- Effect of `client.torrentMove(torrentIds, location, move)`. -/
def clientTorrentMove (location : String) (move : Bool) (ac : ActionController) :
    ActionController :=
  { ac with calls := ac.calls ++ [ClientCall.torrentMove ac.selectedTorrents location move] }

/-- An entry of the `Actions` table of `actions.ts`. -/
structure ActionSpec where
  name : String
  method : ActionController → ActionArgs → ActionController
  defaultShortcut : String

/-- `mapSimpleAction` of `actions.ts`. -/
def mapSimpleAction (name : String) (method : String) (shortcut : String) : ActionSpec :=
  { name := name,
    method := fun ac _ => clientTorrentAction method ac,
    defaultShortcut := shortcut }

/-- The `Actions` table of `actions.ts`. -/
def Actions : List ActionSpec :=
  [ mapSimpleAction "resume" "torrent-start" "",
    mapSimpleAction "pause" "torrent-stop" "",
    mapSimpleAction "moveQueueUp" "queue-move-up" "",
    mapSimpleAction "moveQueueDown" "queue-move-down" "",
    { name := "changeDirectory",
      method := fun ac args => clientTorrentMove args.location args.move ac,
      defaultShortcut := "" },
    mapSimpleAction "verify" "torrent-verify" "",
    mapSimpleAction "reannounce" "torrent-reannounce" "" ]

/-- Lookup in the `methodMap` record built by the constructor loop; the
seven action names are pairwise distinct, so the JavaScript assignment
order is irrelevant. -/
def lookupMethod (m : String) :
    List (String × (ActionController → ActionArgs → ActionController)) →
    Option (ActionController → ActionArgs → ActionController)
  | [] => none
  | (k, v) :: rest => if k = m then some v else lookupMethod m rest

/-- The own entries of the `methodMap` record populated by the
`ActionController` constructor; the record is a plain object, so it also
inherits the `Object.prototype` properties, which `run` accounts for
separately. -/
def methodMap : List (String × (ActionController → ActionArgs → ActionController)) :=
  Actions.map (fun a => (a.name, a.method))

/-- The standard property names a plain JavaScript object `{}` inherits
from `Object.prototype`; the `in` operator of the `run` guard walks this
prototype chain, so these names pass the guard although they were never
registered. -/
def objectProtoProps : List String :=
  [ "constructor", "hasOwnProperty", "isPrototypeOf", "propertyIsEnumerable",
    "toLocaleString", "toString", "valueOf", "__defineGetter__",
    "__defineSetter__", "__lookupGetter__", "__lookupSetter__", "__proto__" ]

/-- The inherited properties whose dispatch rejects: reading `__proto__`
yields `Object.prototype`, which is not callable, and `__defineGetter__` /
`__defineSetter__` throw a TypeError unless their argument is callable —
and no argument `run` forwards (the controller, a location string, a move
boolean) ever is.  The remaining inherited properties are functions whose
invocation completes, issues no RPC-client call and mutates nothing. -/
def protoTypeErrorProps : List String :=
  [ "__proto__", "__defineGetter__", "__defineSetter__" ]

/-- Outcome of one `run` dispatch: the resulting controller state (whose
call log records the RPC-client traffic), or a TypeError rejection of the
async call. -/
inductive RunOutcome where
  | ok (ac : ActionController)
  | typeError
deriving DecidableEq, Repr

/-- `ActionController.run` under ECMAScript semantics: the guard
`method in this.methodMap` sees the seven own entries and every property
inherited from `Object.prototype`.  An own entry runs its registered
handler.  An inherited name has its inherited value invoked: a TypeError
for the non-invocable cases listed in `protoTypeErrorProps`, and a
completed call that issues no client call and changes no controller state
for the other inherited methods.  Any other name fails the guard and is a
silent no-op. -/
def ActionController.run (ac : ActionController) (m : String) (args : ActionArgs) :
    RunOutcome :=
  if (lookupMethod m methodMap).isSome ∨ m ∈ objectProtoProps then
    match lookupMethod m methodMap with
    | some h => RunOutcome.ok (h ac args)
    | none =>
        if m ∈ protoTypeErrorProps then RunOutcome.typeError
        else RunOutcome.ok ac
  else RunOutcome.ok ac

/-- The flat list of the worked example of the spec: `a/b.txt` and
`a/c.txt`. -/
def exampleRecords : List FileRecord :=
  [ { path := ["a", "b.txt"], size := 100, bytesCompleted := 50,
      wanted := true, priority := FilePriority.normal },
    { path := ["a", "c.txt"], size := 200, bytesCompleted := 0,
      wanted := false, priority := FilePriority.normal } ]

/-- Leaf `a/b.txt` of the worked example after parse. -/
def exampleLeafB : FileData :=
  { fullPath := ["a", "b.txt"], index := 0, size := 100, bytesCompleted := 50,
    wanted := true, priority := FilePriority.normal, wantedUpdating := false }

/-- Leaf `a/c.txt` of the worked example after parse. -/
def exampleLeafC : FileData :=
  { fullPath := ["a", "c.txt"], index := 1, size := 200, bytesCompleted := 0,
    wanted := false, priority := FilePriority.normal, wantedUpdating := false }

/-- Directory `a` of the worked example. -/
def exampleDirA : FSNode :=
  FSNode.dir ["a"] [FSNode.file exampleLeafB, FSNode.file exampleLeafC]

/-- The forest produced by parsing the worked example. -/
def exampleForest : List FSNode := [exampleDirA]

/-- Leaf `a/x` (index 0) of the rename-collision scenario. -/
def cexLeafA : FileData :=
  { fullPath := ["a", "x"], index := 0, size := 1, bytesCompleted := 0,
    wanted := true, priority := FilePriority.normal, wantedUpdating := false }

/-- Leaf `b/x` (index 1) of the rename-collision scenario. -/
def cexLeafB : FileData :=
  { fullPath := ["b", "x"], index := 1, size := 1, bytesCompleted := 0,
    wanted := true, priority := FilePriority.normal, wantedUpdating := false }

/-- Two sibling directories `a` and `b`; renaming `b` to `a` collides with
the path of the leaf `a/x`. -/
def cexForest : List FSNode :=
  [ FSNode.dir ["a"] [FSNode.file cexLeafA],
    FSNode.dir ["b"] [FSNode.file cexLeafB] ]

mutual

/-- Mutual induction over the nested tree type: motive `P` for nodes,
motive `Q` for forests. -/
def nodeInd {P : FSNode → Prop} {Q : List FSNode → Prop}
    (f : ∀ d, P (FSNode.file d))
    (g : ∀ q cs, Q cs → P (FSNode.dir q cs))
    (n : Q [])
    (c : ∀ t ts, P t → Q ts → Q (t :: ts)) :
    ∀ t, P t
  | FSNode.file d => f d
  | FSNode.dir q cs => g q cs (forestInd f g n c cs)

/-- Mutual induction over forests. -/
def forestInd {P : FSNode → Prop} {Q : List FSNode → Prop}
    (f : ∀ d, P (FSNode.file d))
    (g : ∀ q cs, Q cs → P (FSNode.dir q cs))
    (n : Q [])
    (c : ∀ t ts, P t → Q ts → Q (t :: ts)) :
    ∀ ts, Q ts
  | [] => n
  | t :: ts => c t ts (nodeInd f g n c t) (forestInd f g n c ts)

end

theorem push_mixed {α : Type} [DecidableEq α] (o : Option α) :
    Consensus.mixed.push o = Consensus.mixed := by
  cases o <;> rfl

theorem push_none {α : Type} [DecidableEq α] (acc : Consensus α) :
    acc.push none = Consensus.mixed := by
  cases acc <;> rfl

theorem pushList_mixed {α : Type} [DecidableEq α] (l : List α) :
    Consensus.pushList Consensus.mixed l = Consensus.mixed := by
  induction l with
  | nil => rfl
  | cons a l ih => simp [Consensus.pushList, push_mixed, ih]

theorem pushList_val_all {α : Type} [DecidableEq α] (a : α) (l : List α)
    (h : ∀ b ∈ l, b = a) :
    Consensus.pushList (Consensus.val a) l = Consensus.val a := by
  induction l with
  | nil => rfl
  | cons b l ih =>
      have hb : b = a := h b (by simp)
      subst hb
      simp only [Consensus.pushList, Consensus.push, if_pos rfl]
      exact ih (fun c hc => h c (by simp [hc]))

theorem pushList_val_ne {α : Type} [DecidableEq α] (a : α) (l : List α)
    (h : ∃ b ∈ l, b ≠ a) :
    Consensus.pushList (Consensus.val a) l = Consensus.mixed := by
  induction l with
  | nil => simp at h
  | cons b l ih =>
      by_cases hb : b = a
      · subst hb
        simp only [Consensus.pushList, Consensus.push, if_pos rfl]
        apply ih
        obtain ⟨c, hc, hne⟩ := h
        rcases List.mem_cons.mp hc with h1 | h1
        · exact absurd h1 hne
        · exact ⟨c, h1, hne⟩
      · have hab : ¬a = b := fun h' => hb h'.symm
        have : (Consensus.val a).push (some b) = Consensus.mixed := by
          simp [Consensus.push, hab]
        simp [Consensus.pushList, this, pushList_mixed]

theorem pushList_const {α : Type} [DecidableEq α] (acc : Consensus α) (a : α)
    (l : List α) (h : ∀ b ∈ l, b = a) :
    Consensus.pushList (acc.push (some a)) l = acc.push (some a) := by
  cases acc with
  | unset => simpa [Consensus.push] using pushList_val_all a l h
  | mixed => simpa [Consensus.push] using pushList_mixed l
  | val c =>
      by_cases hc : c = a
      · subst hc
        simpa [Consensus.push] using pushList_val_all c l h
      · simp [Consensus.push, hc, pushList_mixed]

theorem pushList_ne_const {α : Type} [DecidableEq α] (acc : Consensus α) (a : α)
    (l : List α) (h : ∃ b ∈ l, b ≠ a) :
    Consensus.pushList (acc.push (some a)) l = Consensus.mixed := by
  cases acc with
  | unset => simpa [Consensus.push] using pushList_val_ne a l h
  | mixed => simpa [Consensus.push] using pushList_mixed l
  | val c =>
      by_cases hc : c = a
      · subst hc
        simpa [Consensus.push] using pushList_val_ne c l h
      · simp [Consensus.push, hc, pushList_mixed]

theorem pushList_append {α : Type} [DecidableEq α] (acc : Consensus α)
    (l1 l2 : List α) :
    Consensus.pushList acc (l1 ++ l2)
      = Consensus.pushList (Consensus.pushList acc l1) l2 := by
  induction l1 generalizing acc with
  | nil => rfl
  | cons a l1 ih => simp [Consensus.pushList, ih]

theorem pushList_unset_cons {α : Type} [DecidableEq α] (w : α) (l : List α) :
    Consensus.pushList Consensus.unset (w :: l)
      = Consensus.pushList (Consensus.val w) l := by
  simp [Consensus.pushList, Consensus.push]

theorem pushList_unset_val_iff {α : Type} [DecidableEq α] (ws : List α)
    (hne : ws ≠ []) (a : α) :
    Consensus.pushList Consensus.unset ws = Consensus.val a ↔ ∀ b ∈ ws, b = a := by
  cases ws with
  | nil => exact absurd rfl hne
  | cons w l =>
      rw [pushList_unset_cons]
      by_cases hall : ∀ b ∈ l, b = w
      · rw [pushList_val_all w l hall]
        constructor
        · intro h b hb
          have hwa : w = a := by injection h
          rcases List.mem_cons.mp hb with h1 | h1
          · exact h1.trans hwa
          · exact (hall b h1).trans hwa
        · intro h
          have hwa : w = a := h w (by simp)
          rw [hwa]
      · push_neg at hall
        obtain ⟨b, hb, hbna⟩ := hall
        rw [pushList_val_ne w l ⟨b, hb, hbna⟩]
        constructor
        · intro h; exact absurd h (by simp)
        · intro h
          have h1 : b = a := h b (by simp [hb])
          have h2 : w = a := h w (by simp)
          exact absurd (h1.trans h2.symm) hbna

theorem pushList_unset_mixed_iff {α : Type} [DecidableEq α] (ws : List α)
    (hne : ws ≠ []) :
    Consensus.pushList Consensus.unset ws = Consensus.mixed
      ↔ ∃ b ∈ ws, ∃ c ∈ ws, b ≠ c := by
  cases ws with
  | nil => exact absurd rfl hne
  | cons w l =>
      rw [pushList_unset_cons]
      by_cases hall : ∀ b ∈ l, b = w
      · rw [pushList_val_all w l hall]
        constructor
        · intro h; exact absurd h (by simp)
        · rintro ⟨b, hb, c, hc, hbc⟩
          have hb' : b = w := by
            rcases List.mem_cons.mp hb with h1 | h1
            · exact h1
            · exact hall b h1
          have hc' : c = w := by
            rcases List.mem_cons.mp hc with h1 | h1
            · exact h1
            · exact hall c h1
          exact absurd (hb'.trans hc'.symm) hbc
      · push_neg at hall
        obtain ⟨b, hb, hbnw⟩ := hall
        rw [pushList_val_ne w l ⟨b, hb, hbnw⟩]
        simp only [true_iff]
        exact ⟨b, by simp [hb], w, by simp, hbnw⟩

theorem nodeLeaves_ne_nil (t : FSNode) (h : nodeNonEmpty t = true) :
    nodeLeaves t ≠ [] := by
  refine nodeInd (P := fun t => nodeNonEmpty t = true → nodeLeaves t ≠ [])
    (Q := fun ts => forestNonEmpty ts = true → ts ≠ [] → forestLeaves ts ≠ [])
    ?_ ?_ ?_ ?_ t h
  · intro d _; simp [nodeLeaves]
  · intro q cs ih hw
    simp only [nodeNonEmpty, Bool.and_eq_true, Bool.not_eq_true',
      List.isEmpty_eq_false] at hw
    simpa [nodeLeaves] using ih hw.2 hw.1
  · intro _ h; exact absurd rfl h
  · intro c cs ihc _ hw _
    simp only [forestNonEmpty, Bool.and_eq_true] at hw
    have := ihc hw.1
    simp [forestLeaves]
    intro h1 _
    exact absurd h1 this

theorem forestSizes_eq (ts : List FSNode) :
    forestSizes ts = ((forestLeaves ts).map (fun l => l.size)).sum := by
  refine forestInd
    (P := fun t => derivedSize t = ((nodeLeaves t).map (fun l => l.size)).sum)
    (Q := fun ts => forestSizes ts = ((forestLeaves ts).map (fun l => l.size)).sum)
    ?_ ?_ ?_ ?_ ts
  · intro d; simp [derivedSize, nodeLeaves]
  · intro q cs ih; simpa [derivedSize, nodeLeaves] using ih
  · simp [forestSizes, forestLeaves]
  · intro c cs ih1 ih2; simp [forestSizes, forestLeaves, ih1, ih2]

theorem derivedSize_eq (t : FSNode) :
    derivedSize t = ((nodeLeaves t).map (fun l => l.size)).sum := by
  cases t with
  | file d => simp [derivedSize, nodeLeaves]
  | dir q cs => simpa [derivedSize, nodeLeaves] using forestSizes_eq cs

theorem forestDone_eq (ts : List FSNode) :
    forestDone ts = ((forestLeaves ts).map (fun l => l.bytesCompleted)).sum := by
  refine forestInd
    (P := fun t => derivedDone t = ((nodeLeaves t).map (fun l => l.bytesCompleted)).sum)
    (Q := fun ts => forestDone ts = ((forestLeaves ts).map (fun l => l.bytesCompleted)).sum)
    ?_ ?_ ?_ ?_ ts
  · intro d; simp [derivedDone, nodeLeaves]
  · intro q cs ih; simpa [derivedDone, nodeLeaves] using ih
  · simp [forestDone, forestLeaves]
  · intro c cs ih1 ih2; simp [forestDone, forestLeaves, ih1, ih2]

theorem derivedDone_eq (t : FSNode) :
    derivedDone t = ((nodeLeaves t).map (fun l => l.bytesCompleted)).sum := by
  cases t with
  | file d => simp [derivedDone, nodeLeaves]
  | dir q cs => simpa [derivedDone, nodeLeaves] using forestDone_eq cs

theorem push_toOption_pushList {α : Type} [DecidableEq α] (ws : List α)
    (hne : ws ≠ []) (acc : Consensus α) :
    acc.push (Consensus.pushList Consensus.unset ws).toOption
      = Consensus.pushList acc ws := by
  cases ws with
  | nil => exact absurd rfl hne
  | cons w l =>
      rw [pushList_unset_cons]
      have hstep : Consensus.pushList acc (w :: l)
          = Consensus.pushList (acc.push (some w)) l := by
        simp [Consensus.pushList]
      by_cases hall : ∀ b ∈ l, b = w
      · rw [pushList_val_all w l hall, hstep, pushList_const acc w l hall]
        rfl
      · push_neg at hall
        obtain ⟨b, hb, hbnw⟩ := hall
        rw [pushList_val_ne w l ⟨b, hb, hbnw⟩, hstep,
          pushList_ne_const acc w l ⟨b, hb, hbnw⟩]
        exact push_none acc

theorem nodeCons_pushList {α : Type} [DecidableEq α] (f : FileData → α) (t : FSNode)
    (h : nodeNonEmpty t = true) (acc : Consensus α) :
    acc.push (nodeCons f t) = Consensus.pushList acc ((nodeLeaves t).map f) := by
  refine nodeInd
    (P := fun t => nodeNonEmpty t = true →
      ∀ acc, acc.push (nodeCons f t) = Consensus.pushList acc ((nodeLeaves t).map f))
    (Q := fun ts => forestNonEmpty ts = true →
      ∀ acc, forestCons f acc ts = Consensus.pushList acc ((forestLeaves ts).map f))
    ?_ ?_ ?_ ?_ t h acc
  · intro d _ acc
    simp [nodeCons, nodeLeaves, Consensus.pushList]
  · intro q cs ih hw acc
    simp only [nodeNonEmpty, Bool.and_eq_true, Bool.not_eq_true',
      List.isEmpty_eq_false] at hw
    have hleaves : forestLeaves cs ≠ [] := by
      have : nodeLeaves (FSNode.dir q cs) ≠ [] := by
        apply nodeLeaves_ne_nil
        simp only [nodeNonEmpty, Bool.and_eq_true, Bool.not_eq_true',
          List.isEmpty_eq_false]
        exact hw
      simpa [nodeLeaves] using this
    have hmap : (forestLeaves cs).map f ≠ [] := by simpa using hleaves
    rw [show nodeCons f (FSNode.dir q cs)
        = (forestCons f Consensus.unset cs).toOption from rfl]
    rw [ih hw.2 Consensus.unset]
    simpa [nodeLeaves] using push_toOption_pushList ((forestLeaves cs).map f) hmap acc
  · intro _ acc; simp [forestCons, forestLeaves, Consensus.pushList]
  · intro c cs ihc ihcs hw acc
    simp only [forestNonEmpty, Bool.and_eq_true] at hw
    rw [show forestCons f acc (c :: cs) = forestCons f (acc.push (nodeCons f c)) cs from rfl]
    rw [ihcs hw.2, ihc hw.1 acc]
    simp [forestLeaves, pushList_append]

theorem nodeCons_some_iff {α : Type} [DecidableEq α] (f : FileData → α) (t : FSNode)
    (h : nodeNonEmpty t = true) (a : α) :
    nodeCons f t = some a ↔ ∀ l ∈ nodeLeaves t, f l = a := by
  have hws : (nodeLeaves t).map f ≠ [] := by
    simpa using nodeLeaves_ne_nil t h
  have hb := nodeCons_pushList f t h Consensus.unset
  constructor
  · intro hv
    rw [hv] at hb
    have : Consensus.pushList Consensus.unset ((nodeLeaves t).map f)
        = Consensus.val a := by
      rw [← hb]; rfl
    have hall := (pushList_unset_val_iff ((nodeLeaves t).map f) hws a).mp this
    intro l hl
    exact hall (f l) (List.mem_map_of_mem f hl)
  · intro hall
    have hall' : ∀ b ∈ (nodeLeaves t).map f, b = a := by
      intro b hbm
      obtain ⟨l, hl, rfl⟩ := List.mem_map.mp hbm
      exact hall l hl
    have hval := (pushList_unset_val_iff ((nodeLeaves t).map f) hws a).mpr hall'
    rw [hval] at hb
    cases hv : nodeCons f t with
    | none => rw [hv, push_none] at hb; exact absurd hb (by simp)
    | some a' =>
        rw [hv] at hb
        have : Consensus.val a' = Consensus.val a := hb
        have : a' = a := by injection this
        rw [this]

theorem nodeCons_none_iff {α : Type} [DecidableEq α] (f : FileData → α) (t : FSNode)
    (h : nodeNonEmpty t = true) :
    nodeCons f t = none
      ↔ ∃ l1 ∈ nodeLeaves t, ∃ l2 ∈ nodeLeaves t, f l1 ≠ f l2 := by
  have hws : (nodeLeaves t).map f ≠ [] := by
    simpa using nodeLeaves_ne_nil t h
  have hb := nodeCons_pushList f t h Consensus.unset
  constructor
  · intro hv
    rw [hv, push_none] at hb
    have hmix := (pushList_unset_mixed_iff ((nodeLeaves t).map f) hws).mp hb.symm
    obtain ⟨b, hbm, c, hcm, hbc⟩ := hmix
    obtain ⟨l1, hl1, rfl⟩ := List.mem_map.mp hbm
    obtain ⟨l2, hl2, rfl⟩ := List.mem_map.mp hcm
    exact ⟨l1, hl1, l2, hl2, hbc⟩
  · rintro ⟨l1, hl1, l2, hl2, hne⟩
    have hmix := (pushList_unset_mixed_iff ((nodeLeaves t).map f) hws).mpr
      ⟨f l1, List.mem_map_of_mem f hl1, f l2, List.mem_map_of_mem f hl2, hne⟩
    rw [hmix] at hb
    cases hv : nodeCons f t with
    | none => rfl
    | some a' =>
        rw [hv] at hb
        cases hu : Consensus.unset.push (some a') with
        | val c => rw [hu] at hb; exact absurd hb (by simp)
        | unset => exact absurd hu (by simp [Consensus.push])
        | mixed => exact absurd hu (by simp [Consensus.push])

/-- C1: for every directory node the derived size is the sum of the
descendant leaf sizes and the derived completed bytes the sum of the
descendant completed bytes; the derived want is `true`/`false` exactly when
all descendant leaves agree and indeterminate when mixed, and the derived
priority is the common descendant priority, indeterminate when mixed; in
particular parsing the two-file example yields directory `a` with size 300,
bytesCompleted 50, indeterminate want and priority `normal`. -/
theorem aggregation_consistency :
    (∀ t : FSNode,
        derivedSize t = ((nodeLeaves t).map (fun l => l.size)).sum
      ∧ derivedDone t = ((nodeLeaves t).map (fun l => l.bytesCompleted)).sum)
  ∧ (∀ t : FSNode, nodeNonEmpty t = true →
        (∀ b, derivedWant t = some b ↔ ∀ l ∈ nodeLeaves t, l.wanted = b)
      ∧ (derivedWant t = none
          ↔ ∃ l1 ∈ nodeLeaves t, ∃ l2 ∈ nodeLeaves t, l1.wanted ≠ l2.wanted)
      ∧ (∀ p, derivedPriority t = some p ↔ ∀ l ∈ nodeLeaves t, l.priority = p)
      ∧ (derivedPriority t = none
          ↔ ∃ l1 ∈ nodeLeaves t, ∃ l2 ∈ nodeLeaves t, l1.priority ≠ l2.priority))
  ∧ parse exampleRecords = Except.ok exampleForest
  ∧ findEntryForest ["a"] exampleForest = some exampleDirA
  ∧ derivedSize exampleDirA = 300
  ∧ derivedDone exampleDirA = 50
  ∧ derivedWant exampleDirA = none
  ∧ derivedPriority exampleDirA = some FilePriority.normal := by
  refine ⟨fun t => ⟨derivedSize_eq t, derivedDone_eq t⟩, fun t h => ?_, ?_, rfl, rfl, rfl, rfl, rfl⟩
  · exact ⟨fun b => nodeCons_some_iff (fun d => d.wanted) t h b,
      nodeCons_none_iff (fun d => d.wanted) t h,
      fun p => nodeCons_some_iff (fun d => d.priority) t h p,
      nodeCons_none_iff (fun d => d.priority) t h⟩
  · simp [parse, parseFrom, insertSegs, insertScan, exampleRecords, exampleForest,
      exampleDirA, exampleLeafB, exampleLeafC, nodePath]

/-- Witness for C1: the tri-state part applied to the concrete example
directory, whose well-formedness is discharged by computation. -/
theorem aggregation_consistency_witness :
    ∀ b, derivedWant exampleDirA = some b
      ↔ ∀ l ∈ nodeLeaves exampleDirA, l.wanted = b :=
  (aggregation_consistency.2.1 exampleDirA (by decide)).1

theorem prefixTotal {α : Type} (l1 l2 l3 : List α) (h1 : l1 <+: l3) (h2 : l2 <+: l3) :
    l1 <+: l2 ∨ l2 <+: l1 := by
  rcases Nat.le_total l1.length l2.length with hle | hle
  · exact Or.inl (List.prefix_of_prefix_length_le h1 h2 hle)
  · exact Or.inr (List.prefix_of_prefix_length_le h2 h1 hle)

theorem forestConsistent_mem (q : List String) (cs : List FSNode) (c : FSNode)
    (hw : forestConsistent q cs = true) (hc : c ∈ cs) :
    (nodePath c).length = q.length + 1 ∧ q <+: nodePath c ∧ nodeConsistent c = true := by
  induction cs with
  | nil => simp at hc
  | cons c0 cs ih =>
      simp only [forestConsistent, Bool.and_eq_true, decide_eq_true_eq] at hw
      rcases List.mem_cons.mp hc with h1 | h1
      · subst h1; exact ⟨hw.1.1.1, hw.1.1.2, hw.1.2⟩
      · exact ih hw.2 h1

theorem nodePaths_extend (t : FSNode) (hw : nodeConsistent t = true) :
    ∀ r ∈ nodePaths t, nodePath t <+: r := by
  refine nodeInd
    (P := fun t => nodeConsistent t = true → ∀ r ∈ nodePaths t, nodePath t <+: r)
    (Q := fun ts => ∀ q, forestConsistent q ts = true →
      ∀ r ∈ forestPaths ts, q <+: r ∧ q.length < r.length)
    ?_ ?_ ?_ ?_ t hw
  · intro d _ r hr
    simp only [nodePaths, List.mem_singleton] at hr
    subst hr; exact List.prefix_rfl
  · intro q cs ih hw r hr
    simp only [nodePaths, List.mem_cons] at hr
    rcases hr with h1 | h1
    · subst h1; exact List.prefix_rfl
    · exact (ih q (by simpa [nodeConsistent] using hw) r h1).1
  · intro q hw r hr
    simp [forestPaths] at hr
  · intro c cs ihc ihcs q hw r hr
    simp only [forestConsistent, Bool.and_eq_true, decide_eq_true_eq] at hw
    obtain ⟨⟨⟨hlen, hpre⟩, hcon⟩, hrest⟩ := hw
    simp only [forestPaths, List.mem_append] at hr
    rcases hr with h1 | h1
    · have hsub : nodePath c <+: r := ihc hcon r h1
      constructor
      · exact hpre.trans hsub
      · have h2 : (nodePath c).length ≤ r.length := hsub.length_le
        omega
    · exact ihcs q hrest r h1

theorem forestPaths_extend (q : List String) (cs : List FSNode)
    (hw : forestConsistent q cs = true) :
    ∀ r ∈ forestPaths cs, q <+: r ∧ q.length < r.length := by
  induction cs with
  | nil => intro r hr; simp [forestPaths] at hr
  | cons c cs ih =>
      intro r hr
      simp only [forestConsistent, Bool.and_eq_true, decide_eq_true_eq] at hw
      obtain ⟨⟨⟨hlen, hpre⟩, hcon⟩, hrest⟩ := hw
      simp only [forestPaths, List.mem_append] at hr
      rcases hr with h1 | h1
      · have hsub : nodePath c <+: r := nodePaths_extend c hcon r h1
        refine ⟨hpre.trans hsub, ?_⟩
        have h2 : (nodePath c).length ≤ r.length := hsub.length_le
        omega
      · exact ih hrest r h1

theorem nodePaths_self (t : FSNode) : nodePath t ∈ nodePaths t := by
  cases t with
  | file d => simp [nodePath, nodePaths]
  | dir q cs => simp [nodePath, nodePaths]

theorem forestLeafPath_mem (cs : List FSNode) (l : FileData)
    (hl : l ∈ forestLeaves cs) : l.fullPath ∈ forestPaths cs := by
  refine forestInd
    (P := fun t => ∀ l, l ∈ nodeLeaves t → l.fullPath ∈ nodePaths t)
    (Q := fun ts => ∀ l, l ∈ forestLeaves ts → l.fullPath ∈ forestPaths ts)
    ?_ ?_ ?_ ?_ cs l hl
  · intro d l hl
    simp only [nodeLeaves, List.mem_singleton] at hl
    subst hl; simp [nodePaths]
  · intro q ts ih l hl
    simp only [nodeLeaves] at hl
    simp only [nodePaths, List.mem_cons]
    exact Or.inr (ih l hl)
  · intro l hl; simp [forestLeaves] at hl
  · intro c ts ihc ihts l hl
    simp only [forestLeaves, List.mem_append] at hl
    simp only [forestPaths, List.mem_append]
    rcases hl with h1 | h1
    · exact Or.inl (ihc l h1)
    · exact Or.inr (ihts l h1)

theorem setAllWanted_leaves (s u : Bool) (cs : List FSNode) :
    forestLeaves (setAllWantedForest s u cs)
      = (forestLeaves cs).map (fun l => { l with wanted := s, wantedUpdating := u }) := by
  refine forestInd
    (P := fun t => nodeLeaves (setAllWantedNode s u t)
      = (nodeLeaves t).map (fun l => { l with wanted := s, wantedUpdating := u }))
    (Q := fun ts => forestLeaves (setAllWantedForest s u ts)
      = (forestLeaves ts).map (fun l => { l with wanted := s, wantedUpdating := u }))
    ?_ ?_ ?_ ?_ cs
  · intro d; simp [setAllWantedNode, nodeLeaves]
  · intro q ts ih; simpa [setAllWantedNode, nodeLeaves] using ih
  · simp [setAllWantedForest, forestLeaves]
  · intro c ts ihc ihts; simp [setAllWantedForest, forestLeaves, ihc, ihts]

theorem setWanted_id_forest (p : List String) (s u : Bool) (cs : List FSNode)
    (h : ∀ r ∈ forestPaths cs, r ≠ p) : setWantedForest p s u cs = cs := by
  refine forestInd
    (P := fun t => (∀ r ∈ nodePaths t, r ≠ p) → setWantedNode p s u t = t)
    (Q := fun ts => (∀ r ∈ forestPaths ts, r ≠ p) → setWantedForest p s u ts = ts)
    ?_ ?_ ?_ ?_ cs h
  · intro d hr
    have : d.fullPath ≠ p := hr d.fullPath (by simp [nodePaths])
    simp [setWantedNode, this]
  · intro q ts ih hr
    have hq : q ≠ p := hr q (by simp [nodePaths])
    have hts : ∀ r ∈ forestPaths ts, r ≠ p := fun r hrm =>
      hr r (by simp [nodePaths, hrm])
    simp [setWantedNode, hq, ih hts]
  · intro _; rfl
  · intro c ts ihc ihts hr
    have hc : ∀ r ∈ nodePaths c, r ≠ p := fun r hrm =>
      hr r (by simp [forestPaths, hrm])
    have hts : ∀ r ∈ forestPaths ts, r ≠ p := fun r hrm =>
      hr r (by simp [forestPaths, hrm])
    simp [setWantedForest, ihc hc, ihts hts]

theorem setWanted_node_main (p : List String) (s u : Bool) (hp : p ≠ []) (t : FSNode)
    (hw : nodeConsistent t = true) :
    (nodePath t <+: p →
      nodeLeaves (setWantedNode p s u t) = (nodeLeaves t).map (updWL p s u))
  ∧ (¬ nodePath t <+: p → ¬ p <+: nodePath t →
      setWantedNode p s u t = t ∧ ∀ l ∈ nodeLeaves t, ¬ p <+: l.fullPath) := by
  refine nodeInd
    (P := fun t => nodeConsistent t = true →
      (nodePath t <+: p →
        nodeLeaves (setWantedNode p s u t) = (nodeLeaves t).map (updWL p s u))
      ∧ (¬ nodePath t <+: p → ¬ p <+: nodePath t →
        setWantedNode p s u t = t ∧ ∀ l ∈ nodeLeaves t, ¬ p <+: l.fullPath))
    (Q := fun ts => ∀ q, forestConsistent q ts = true → q <+: p → q ≠ p →
      forestLeaves (setWantedForest p s u ts) = (forestLeaves ts).map (updWL p s u))
    ?_ ?_ ?_ ?_ t hw
  · intro d _
    constructor
    · intro hpre
      by_cases he : d.fullPath = p
      · simp [setWantedNode, he, nodeLeaves, updWL, List.prefix_rfl]
      · have hnp : ¬ p <+: d.fullPath := by
          intro hc
          have h1 : d.fullPath.length ≤ p.length := hpre.length_le
          have h2 : p.length ≤ d.fullPath.length := hc.length_le
          exact he (List.IsPrefix.eq_of_length hpre (by omega)) |>.elim
        simp [setWantedNode, he, nodeLeaves, updWL, hnp]
    · intro hnpre hnp2
      have he : d.fullPath ≠ p := fun hc => hnpre (hc ▸ List.prefix_rfl)
      refine ⟨by simp [setWantedNode, he], ?_⟩
      intro l hl
      simp only [nodeLeaves, List.mem_singleton] at hl
      subst hl
      simpa [nodePath] using hnp2
  · intro q cs ih hw
    have hcon : forestConsistent q cs = true := by simpa [nodeConsistent] using hw
    constructor
    · intro hpre
      simp only [nodePath] at hpre
      by_cases he : q = p
      · subst he
        have hleaf : ∀ l ∈ forestLeaves cs, q <+: l.fullPath := by
          intro l hl
          exact (forestPaths_extend q cs hcon l.fullPath (forestLeafPath_mem cs l hl)).1
        have hred : setWantedNode q s u (FSNode.dir q cs)
            = FSNode.dir q (setAllWantedForest s u cs) := by
          simp [setWantedNode]
        rw [hred]
        simp only [nodeLeaves]
        rw [setAllWanted_leaves]
        symm
        apply List.map_congr_left
        intro l hl
        simp [updWL, hleaf l hl]
      · simp only [setWantedNode, if_neg he, nodeLeaves]
        exact ih q hcon hpre he
    · intro hnpre hnp2
      simp only [nodePath] at hnpre hnp2
      have he : q ≠ p := fun hc => hnpre (hc ▸ List.prefix_rfl)
      have hnomem : ∀ r ∈ forestPaths cs, r ≠ p := by
        intro r hr hrp
        subst hrp
        exact hnpre (forestPaths_extend q cs hcon r hr).1
      refine ⟨by simp [setWantedNode, he, setWanted_id_forest p s u cs hnomem], ?_⟩
      intro l hl hc
      simp only [nodeLeaves] at hl
      have hq : q <+: l.fullPath :=
        (forestPaths_extend q cs hcon l.fullPath (forestLeafPath_mem cs l hl)).1
      rcases prefixTotal p q l.fullPath hc hq with h1 | h1
      · exact hnp2 h1
      · exact hnpre h1
  · intro q _ _ _
    rfl
  · intro c cs ihc ihcs q hw hqp hqnep
    simp only [forestConsistent, Bool.and_eq_true, decide_eq_true_eq] at hw
    obtain ⟨⟨⟨hlen, hqc⟩, hcon⟩, hrest⟩ := hw
    have hlenp : q.length + 1 ≤ p.length := by
      have h1 : q.length ≤ p.length := hqp.length_le
      rcases Nat.lt_or_ge q.length p.length with h2 | h2
      · omega
      · exact absurd (List.IsPrefix.eq_of_length hqp (by omega)) hqnep
    have hdico : nodePath c <+: p ∨ (¬ nodePath c <+: p ∧ ¬ p <+: nodePath c) := by
      by_cases h1 : nodePath c <+: p
      · exact Or.inl h1
      · refine Or.inr ⟨h1, fun h2 => ?_⟩
        have h3 : p.length ≤ (nodePath c).length := h2.length_le
        have h4 : p = nodePath c := List.IsPrefix.eq_of_length h2 (by omega)
        exact h1 (h4 ▸ List.prefix_rfl)
    simp only [setWantedForest, forestLeaves, List.map_append]
    rcases hdico with h1 | ⟨h1, h2⟩
    · rw [(ihc hcon).1 h1, ihcs q hrest hqp hqnep]
    · obtain ⟨hid, hnoext⟩ := (ihc hcon).2 h1 h2
      rw [hid, ihcs q hrest hqp hqnep]
      congr 1
      have hmid : (nodeLeaves c).map (updWL p s u) = (nodeLeaves c).map id :=
        List.map_congr_left (fun l hl => by simp [updWL, hnoext l hl])
      simp only [List.map_id] at hmid
      exact hmid.symm

theorem findEntry_char (p : List String) (f : List FSNode) :
    (findEntryForest p f = none ↔ p ∉ forestPaths f)
  ∧ (∀ n, findEntryForest p f = some n → nodePath n = p ∧ n ∈ forestNodes f) := by
  refine forestInd
    (P := fun t => (findEntryNode p t = none ↔ p ∉ nodePaths t)
      ∧ (∀ n, findEntryNode p t = some n → nodePath n = p ∧ n ∈ nodeNodes t))
    (Q := fun ts => (findEntryForest p ts = none ↔ p ∉ forestPaths ts)
      ∧ (∀ n, findEntryForest p ts = some n → nodePath n = p ∧ n ∈ forestNodes ts))
    ?_ ?_ ?_ ?_ f
  · intro d
    by_cases he : d.fullPath = p
    · subst he
      refine ⟨?_, ?_⟩
      · simp [findEntryNode, nodePaths]
      · intro n hn
        simp only [findEntryNode] at hn
        rw [if_true] at hn
        have hn' : FSNode.file d = n := by injection hn
        subst hn'
        simp [nodePath, nodeNodes]
    · refine ⟨?_, ?_⟩
      · have hne : p ≠ d.fullPath := fun h => he h.symm
        simp [findEntryNode, he, nodePaths, hne]
      · intro n hn
        simp [findEntryNode, he] at hn
  · intro q cs ih
    by_cases he : q = p
    · subst he
      refine ⟨?_, ?_⟩
      · simp [findEntryNode, nodePaths]
      · intro n hn
        simp only [findEntryNode] at hn
        rw [if_true] at hn
        have hn' : FSNode.dir q cs = n := by injection hn
        subst hn'
        simp [nodePath, nodeNodes]
    · refine ⟨?_, ?_⟩
      · simp only [findEntryNode, if_neg he, nodePaths, List.mem_cons, not_or]
        rw [ih.1]
        constructor
        · intro h1; exact ⟨fun hc => he hc.symm, h1⟩
        · intro h1; exact h1.2
      · intro n hn
        simp only [findEntryNode, if_neg he] at hn
        obtain ⟨h1, h2⟩ := ih.2 n hn
        exact ⟨h1, by simp [nodeNodes, h2]⟩
  · refine ⟨by simp [findEntryForest, forestPaths], ?_⟩
    intro n hn
    simp [findEntryForest] at hn
  · intro c cs ihc ihcs
    refine ⟨?_, ?_⟩
    · simp only [forestPaths, List.mem_append, not_or]
      cases hfe : findEntryNode p c with
      | some n =>
          simp only [findEntryForest, hfe]
          constructor
          · intro h; exact absurd h (by simp)
          · intro h
            have hnone := ihc.1.mpr h.1
            rw [hnone] at hfe
            exact absurd hfe (by simp)
      | none =>
          simp only [findEntryForest, hfe]
          rw [ihcs.1]
          have hnp : p ∉ nodePaths c := ihc.1.mp hfe
          constructor
          · intro h; exact ⟨hnp, h⟩
          · intro h; exact h.2
    · intro n hn
      cases hfe : findEntryNode p c with
      | some m =>
          simp only [findEntryForest, hfe, Option.some.injEq] at hn
          subst hn
          obtain ⟨h1, h2⟩ := ihc.2 m hfe
          exact ⟨h1, by simp [forestNodes, h2]⟩
      | none =>
          simp only [findEntryForest, hfe] at hn
          obtain ⟨h1, h2⟩ := ihcs.2 n hn
          exact ⟨h1, by simp [forestNodes, h2]⟩

theorem rootsWf_paths_ne_nil (f : List FSNode) (hwf : rootsWf f = true) :
    ∀ r ∈ forestPaths f, r ≠ [] := by
  induction f with
  | nil => intro r hr; simp [forestPaths] at hr
  | cons c cs ih =>
      intro r hr
      simp only [rootsWf, Bool.and_eq_true, decide_eq_true_eq] at hwf
      obtain ⟨⟨hlen, hcon⟩, hrest⟩ := hwf
      simp only [forestPaths, List.mem_append] at hr
      rcases hr with h1 | h1
      · have hsub : nodePath c <+: r := nodePaths_extend c hcon r h1
        have := hsub.length_le
        intro hc
        subst hc
        simp only [List.length_nil, Nat.le_zero] at this
        omega
      · exact ih hrest r h1

theorem setWanted_forest_eq (f : List FSNode) (p : List String) (s u : Bool)
    (hwf : rootsWf f = true) (hp : p ≠ []) :
    forestLeaves (setWantedForest p s u f) = (forestLeaves f).map (updWL p s u) := by
  induction f with
  | nil => rfl
  | cons c cs ih =>
      simp only [rootsWf, Bool.and_eq_true, decide_eq_true_eq] at hwf
      obtain ⟨⟨hlen, hcon⟩, hrest⟩ := hwf
      have hmain := setWanted_node_main p s u hp c hcon
      simp only [setWantedForest, forestLeaves, List.map_append]
      by_cases h1 : nodePath c <+: p
      · rw [hmain.1 h1, ih hrest]
      · have h2 : ¬ p <+: nodePath c := by
          intro h2
          have h3 : p.length ≤ (nodePath c).length := h2.length_le
          have hpl : 1 ≤ p.length := by
            cases p with
            | nil => exact absurd rfl hp
            | cons a l => simp
          have h4 : p = nodePath c := List.IsPrefix.eq_of_length h2 (by omega)
          exact h1 (h4 ▸ List.prefix_rfl)
        obtain ⟨hid, hnoext⟩ := hmain.2 h1 h2
        rw [hid, ih hrest]
        congr 1
        have hmid : (nodeLeaves c).map (updWL p s u) = (nodeLeaves c).map id :=
          List.map_congr_left (fun l hl => by simp [updWL, hnoext l hl])
        simp only [List.map_id] at hmid
        exact hmid.symm

/-- C2: for every well-formed tree and every path `p` that names a node,
the cascading `setWanted` sets the wanted flag (and the transient updating
flag) on exactly the leaves at or below `p` and leaves every other leaf
record untouched; in particular every leaf under `p` afterwards carries the
new state, and a leaf path only rewrites that single leaf. -/
theorem setWanted_cascade (f : List FSNode) (p : List String) (s u : Bool)
    (hwf : rootsWf f = true) (hp : (findEntryForest p f).isSome = true) :
    forestLeaves (setWantedForest p s u f) = (forestLeaves f).map (updWL p s u)
  ∧ ∀ l ∈ forestLeaves (setWantedForest p s u f),
      p <+: l.fullPath → l.wanted = s := by
  obtain ⟨n, hn⟩ := Option.isSome_iff_exists.mp hp
  obtain ⟨hpath, _⟩ := (findEntry_char p f).2 n hn
  have hpmem : p ∈ forestPaths f := by
    rw [← hpath]
    by_contra hc
    rw [hpath] at hc
    rw [(findEntry_char p f).1.mpr hc] at hn
    exact absurd hn (by simp)
  have hpne : p ≠ [] := rootsWf_paths_ne_nil f hwf p hpmem
  have heq := setWanted_forest_eq f p s u hwf hpne
  refine ⟨heq, ?_⟩
  intro l hl hpre
  rw [heq] at hl
  obtain ⟨l0, _, rfl⟩ := List.mem_map.mp hl
  by_cases h0 : p <+: l0.fullPath
  · simp [updWL, h0]
  · rw [show updWL p s u l0 = l0 from by simp [updWL, h0]] at hpre ⊢
    exact absurd hpre h0

/-- Witness for C2: the cascade applied to the worked example directory. -/
theorem setWanted_cascade_witness :
    forestLeaves (setWantedForest ["a"] true false exampleForest)
      = (forestLeaves exampleForest).map (updWL ["a"] true false) :=
  (setWanted_cascade exampleForest ["a"] true false (by decide) (by rfl)).1

/-- C7: `findEntry` is total — for every tree and every path it returns a
node exactly when a node with that full path exists (and that node bears
the path), and the explicit not-found result `none` otherwise; the other
tree operations are likewise total Lean functions over the tree state. -/
theorem findEntry_total (f : List FSNode) (p : List String) :
    (findEntryForest p f = none ↔ p ∉ forestPaths f)
  ∧ (∀ n, findEntryForest p f = some n → nodePath n = p ∧ n ∈ forestNodes f)
  ∧ ((findEntryForest p f).isSome = true ↔ p ∈ forestPaths f) := by
  refine ⟨(findEntry_char p f).1, (findEntry_char p f).2, ?_⟩
  constructor
  · intro h
    by_contra hc
    rw [(findEntry_char p f).1.mpr hc] at h
    exact absurd h (by simp)
  · intro h
    cases hfe : findEntryForest p f with
    | some n => simp
    | none => exact absurd h ((findEntry_char p f).1.mp hfe)

/-- Witness for C7: resolving the example directory path returns the
directory node carrying that path. -/
theorem findEntry_total_witness :
    nodePath exampleDirA = ["a"] ∧ exampleDirA ∈ forestNodes exampleForest :=
  (findEntry_total exampleForest ["a"]).2.1 exampleDirA rfl

theorem renameAll_paths (old : List String) (name : String) (cs : List FSNode) :
    forestPaths (renameAllForest old name cs)
      = (forestPaths cs).map (substPath old name) := by
  refine forestInd
    (P := fun t => nodePaths (renameAllNode old name t)
      = (nodePaths t).map (substPath old name))
    (Q := fun ts => forestPaths (renameAllForest old name ts)
      = (forestPaths ts).map (substPath old name))
    ?_ ?_ ?_ ?_ cs
  · intro d; simp [renameAllNode, nodePaths]
  · intro q ts ih; simp [renameAllNode, nodePaths, ih]
  · simp [renameAllForest, forestPaths]
  · intro c ts ihc ihts; simp [renameAllForest, forestPaths, ihc, ihts]

theorem renameAll_leaves (old : List String) (name : String) (cs : List FSNode) :
    forestLeaves (renameAllForest old name cs)
      = (forestLeaves cs).map (fun l => { l with fullPath := substPath old name l.fullPath }) := by
  refine forestInd
    (P := fun t => nodeLeaves (renameAllNode old name t)
      = (nodeLeaves t).map (fun l => { l with fullPath := substPath old name l.fullPath }))
    (Q := fun ts => forestLeaves (renameAllForest old name ts)
      = (forestLeaves ts).map (fun l => { l with fullPath := substPath old name l.fullPath }))
    ?_ ?_ ?_ ?_ cs
  · intro d; simp [renameAllNode, nodeLeaves]
  · intro q ts ih; simpa [renameAllNode, nodeLeaves] using ih
  · simp [renameAllForest, forestLeaves]
  · intro c ts ihc ihts; simp [renameAllForest, forestLeaves, ihc, ihts]

theorem updatePath_id_forest (old : List String) (name : String) (cs : List FSNode)
    (h : ∀ r ∈ forestPaths cs, r ≠ old) : updatePathForest old name cs = cs := by
  refine forestInd
    (P := fun t => (∀ r ∈ nodePaths t, r ≠ old) → updatePathNode old name t = t)
    (Q := fun ts => (∀ r ∈ forestPaths ts, r ≠ old) → updatePathForest old name ts = ts)
    ?_ ?_ ?_ ?_ cs h
  · intro d hr
    have : d.fullPath ≠ old := hr d.fullPath (by simp [nodePaths])
    simp [updatePathNode, this]
  · intro q ts ih hr
    have hq : q ≠ old := hr q (by simp [nodePaths])
    have hts : ∀ r ∈ forestPaths ts, r ≠ old := fun r hrm =>
      hr r (by simp [nodePaths, hrm])
    simp [updatePathNode, hq, ih hts]
  · intro _; rfl
  · intro c ts ihc ihts hr
    have hc : ∀ r ∈ nodePaths c, r ≠ old := fun r hrm =>
      hr r (by simp [forestPaths, hrm])
    have hts : ∀ r ∈ forestPaths ts, r ≠ old := fun r hrm =>
      hr r (by simp [forestPaths, hrm])
    simp [updatePathForest, ihc hc, ihts hts]

theorem updatePath_node_main (old : List String) (name : String) (hold : old ≠ [])
    (t : FSNode) (hw : nodeConsistent t = true) :
    (nodePath t <+: old →
        nodePaths (updatePathNode old name t) = (nodePaths t).map (substIf old name)
      ∧ nodeLeaves (updatePathNode old name t)
          = (nodeLeaves t).map (fun l => { l with fullPath := substIf old name l.fullPath }))
  ∧ (¬ nodePath t <+: old → ¬ old <+: nodePath t →
      updatePathNode old name t = t ∧ ∀ r ∈ nodePaths t, ¬ old <+: r) := by
  refine nodeInd
    (P := fun t => nodeConsistent t = true →
      (nodePath t <+: old →
          nodePaths (updatePathNode old name t) = (nodePaths t).map (substIf old name)
        ∧ nodeLeaves (updatePathNode old name t)
            = (nodeLeaves t).map (fun l => { l with fullPath := substIf old name l.fullPath }))
      ∧ (¬ nodePath t <+: old → ¬ old <+: nodePath t →
          updatePathNode old name t = t ∧ ∀ r ∈ nodePaths t, ¬ old <+: r))
    (Q := fun ts => ∀ q, forestConsistent q ts = true → q <+: old → q ≠ old →
        forestPaths (updatePathForest old name ts) = (forestPaths ts).map (substIf old name)
      ∧ forestLeaves (updatePathForest old name ts)
          = (forestLeaves ts).map (fun l => { l with fullPath := substIf old name l.fullPath }))
    ?_ ?_ ?_ ?_ t hw
  · intro d _
    constructor
    · intro hpre
      by_cases he : d.fullPath = old
      · subst he
        simp [updatePathNode, nodePaths, nodeLeaves, substIf, List.prefix_rfl]
      · have hnp : ¬ old <+: d.fullPath := by
          intro hc
          have h1 : d.fullPath.length ≤ old.length := hpre.length_le
          have h2 : old.length ≤ d.fullPath.length := hc.length_le
          exact he (List.IsPrefix.eq_of_length hpre (by omega)) |>.elim
        simp [updatePathNode, he, nodePaths, nodeLeaves, substIf, hnp]
    · intro hnpre hnp2
      have he : d.fullPath ≠ old := fun hc => hnpre (hc ▸ List.prefix_rfl)
      refine ⟨by simp [updatePathNode, he], ?_⟩
      intro r hr
      simp only [nodePaths, List.mem_singleton] at hr
      subst hr
      simpa [nodePath] using hnp2
  · intro q cs ih hw
    have hcon : forestConsistent q cs = true := by simpa [nodeConsistent] using hw
    constructor
    · intro hpre
      simp only [nodePath] at hpre
      by_cases he : q = old
      · subst he
        have hred : updatePathNode q name (FSNode.dir q cs)
            = FSNode.dir (substPath q name q) (renameAllForest q name cs) := by
          simp [updatePathNode]
        rw [hred]
        have hpm : ∀ r ∈ forestPaths cs, q <+: r := fun r hr =>
          (forestPaths_extend q cs hcon r hr).1
        have hlm : ∀ l ∈ forestLeaves cs, q <+: l.fullPath := fun l hl =>
          hpm l.fullPath (forestLeafPath_mem cs l hl)
        constructor
        · simp only [nodePaths, renameAll_paths, List.map_cons]
          rw [show substIf q name q = substPath q name q from by
            simp [substIf, List.prefix_rfl]]
          congr 1
          apply List.map_congr_left
          intro r hr
          simp [substIf, hpm r hr]
        · simp only [nodeLeaves, renameAll_leaves]
          apply List.map_congr_left
          intro l hl
          simp [substIf, hlm l hl]
      · have hred : updatePathNode old name (FSNode.dir q cs)
            = FSNode.dir q (updatePathForest old name cs) := by
          simp [updatePathNode, he]
        rw [hred]
        obtain ⟨hps, hls⟩ := ih q hcon hpre he
        constructor
        · simp only [nodePaths, hps, List.map_cons]
          congr 1
          have hqs : substIf old name q = q := by
            have : ¬ old <+: q := by
              intro hc
              have h1 : q.length ≤ old.length := hpre.length_le
              have h2 : old.length ≤ q.length := hc.length_le
              exact he (List.IsPrefix.eq_of_length hpre (by omega))
            simp [substIf, this]
          rw [hqs]
        · simpa [nodeLeaves] using hls
    · intro hnpre hnp2
      simp only [nodePath] at hnpre hnp2
      have he : q ≠ old := fun hc => hnpre (hc ▸ List.prefix_rfl)
      have hnomem : ∀ r ∈ forestPaths cs, r ≠ old := by
        intro r hr hrp
        subst hrp
        exact hnpre (forestPaths_extend q cs hcon r hr).1
      refine ⟨by simp [updatePathNode, he, updatePath_id_forest old name cs hnomem], ?_⟩
      intro r hr
      simp only [nodePaths, List.mem_cons] at hr
      rcases hr with h1 | h1
      · subst h1; exact hnp2
      · intro hc
        have hq : q <+: r := (forestPaths_extend q cs hcon r h1).1
        rcases prefixTotal old q r hc hq with h2 | h2
        · exact hnp2 h2
        · exact hnpre h2
  · intro q _ _ _
    exact ⟨rfl, rfl⟩
  · intro c cs ihc ihcs q hw hqp hqnep
    simp only [forestConsistent, Bool.and_eq_true, decide_eq_true_eq] at hw
    obtain ⟨⟨⟨hlen, hqc⟩, hcon⟩, hrest⟩ := hw
    have hlenp : q.length + 1 ≤ old.length := by
      have h1 : q.length ≤ old.length := hqp.length_le
      rcases Nat.lt_or_ge q.length old.length with h2 | h2
      · omega
      · exact absurd (List.IsPrefix.eq_of_length hqp (by omega)) hqnep
    have hdico : nodePath c <+: old ∨ (¬ nodePath c <+: old ∧ ¬ old <+: nodePath c) := by
      by_cases h1 : nodePath c <+: old
      · exact Or.inl h1
      · refine Or.inr ⟨h1, fun h2 => ?_⟩
        have h3 : old.length ≤ (nodePath c).length := h2.length_le
        have h4 : old = nodePath c := List.IsPrefix.eq_of_length h2 (by omega)
        exact h1 (h4 ▸ List.prefix_rfl)
    obtain ⟨hpsr, hlsr⟩ := ihcs q hrest hqp hqnep
    simp only [updatePathForest, forestPaths, forestLeaves, List.map_append]
    rcases hdico with h1 | ⟨h1, h2⟩
    · obtain ⟨hps, hls⟩ := (ihc hcon).1 h1
      rw [hps, hls, hpsr, hlsr]
      exact ⟨rfl, rfl⟩
    · obtain ⟨hid, hnoext⟩ := (ihc hcon).2 h1 h2
      rw [hid, hpsr, hlsr]
      constructor
      · congr 1
        have hmid : (nodePaths c).map (substIf old name) = (nodePaths c).map id :=
          List.map_congr_left (fun r hr => by simp [substIf, hnoext r hr])
        simp only [List.map_id] at hmid
        exact hmid.symm
      · congr 1
        have hnoextl : ∀ l ∈ nodeLeaves c, ¬ old <+: l.fullPath := by
          intro l hl
          refine hnoext l.fullPath ?_
          cases c with
          | file d =>
              simp only [nodeLeaves, List.mem_singleton] at hl
              subst hl; simp [nodePaths]
          | dir qd csd =>
              simp only [nodeLeaves] at hl
              simp only [nodePaths, List.mem_cons]
              exact Or.inr (forestLeafPath_mem csd l hl)
        have hmid : (nodeLeaves c).map
            (fun l => { l with fullPath := substIf old name l.fullPath })
            = (nodeLeaves c).map id :=
          List.map_congr_left (fun l hl => by simp [substIf, hnoextl l hl])
        simp only [List.map_id] at hmid
        exact hmid.symm

theorem updatePath_forest_eq (f : List FSNode) (old : List String) (name : String)
    (hwf : rootsWf f = true) (hold : old ≠ []) :
    forestPaths (updatePathForest old name f) = (forestPaths f).map (substIf old name)
  ∧ forestLeaves (updatePathForest old name f)
      = (forestLeaves f).map (fun l => { l with fullPath := substIf old name l.fullPath }) := by
  induction f with
  | nil => exact ⟨rfl, rfl⟩
  | cons c cs ih =>
      simp only [rootsWf, Bool.and_eq_true, decide_eq_true_eq] at hwf
      obtain ⟨⟨hlen, hcon⟩, hrest⟩ := hwf
      have hmain := updatePath_node_main old name hold c hcon
      obtain ⟨ihp, ihl⟩ := ih hrest
      simp only [updatePathForest, forestPaths, forestLeaves, List.map_append]
      by_cases h1 : nodePath c <+: old
      · obtain ⟨hps, hls⟩ := hmain.1 h1
        rw [hps, hls, ihp, ihl]
        exact ⟨rfl, rfl⟩
      · have h2 : ¬ old <+: nodePath c := by
          intro h2
          have h3 : old.length ≤ (nodePath c).length := h2.length_le
          have hol : 1 ≤ old.length := by
            cases old with
            | nil => exact absurd rfl hold
            | cons a l => simp
          have h4 : old = nodePath c := List.IsPrefix.eq_of_length h2 (by omega)
          exact h1 (h4 ▸ List.prefix_rfl)
        obtain ⟨hid, hnoext⟩ := hmain.2 h1 h2
        rw [hid, ihp, ihl]
        constructor
        · congr 1
          have hmid : (nodePaths c).map (substIf old name) = (nodePaths c).map id :=
            List.map_congr_left (fun r hr => by simp [substIf, hnoext r hr])
          simp only [List.map_id] at hmid
          exact hmid.symm
        · congr 1
          have hnoextl : ∀ l ∈ nodeLeaves c, ¬ old <+: l.fullPath := by
            intro l hl
            refine hnoext l.fullPath ?_
            cases c with
            | file d =>
                simp only [nodeLeaves, List.mem_singleton] at hl
                subst hl; simp [nodePaths]
            | dir qd csd =>
                simp only [nodeLeaves] at hl
                simp only [nodePaths, List.mem_cons]
                exact Or.inr (forestLeafPath_mem csd l hl)
          have hmid : (nodeLeaves c).map
              (fun l => { l with fullPath := substIf old name l.fullPath })
              = (nodeLeaves c).map id :=
            List.map_congr_left (fun l hl => by simp [substIf, hnoextl l hl])
          simp only [List.map_id] at hmid
          exact hmid.symm

/-- C3: renaming through `updatePath` is atomic — on daemon failure the
tree value returned to the caller is the unchanged pre-rename tree together
with the `renameFailed` signal, and on success every stored path at or
below the renamed path (the node and all its descendants) is rewritten by
prefix substitution while every other node and all leaf payloads are left
intact. -/
theorem updatePath_atomic (f : List FSNode) (old : List String) (name : String)
    (hwf : rootsWf f = true) (hold : old ≠ []) :
    renameTorrentPath false old name f = (f, RenameOutcome.renameFailed)
  ∧ forestPaths (renameTorrentPath true old name f).1
      = (forestPaths f).map (substIf old name)
  ∧ forestLeaves (renameTorrentPath true old name f).1
      = (forestLeaves f).map (fun l => { l with fullPath := substIf old name l.fullPath }) := by
  refine ⟨rfl, ?_, ?_⟩
  · exact (updatePath_forest_eq f old name hwf hold).1
  · exact (updatePath_forest_eq f old name hwf hold).2

/-- Witness for C3: renaming the example directory `a` to `z`. -/
theorem updatePath_atomic_witness :
    renameTorrentPath false ["a"] "z" exampleForest
      = (exampleForest, RenameOutcome.renameFailed)
  ∧ forestPaths (renameTorrentPath true ["a"] "z" exampleForest).1
      = (forestPaths exampleForest).map (substIf ["a"] "z") :=
  ⟨(updatePath_atomic exampleForest ["a"] "z" (by decide) (by decide)).1,
   (updatePath_atomic exampleForest ["a"] "z" (by decide) (by decide)).2.1⟩

theorem updateLeaf_idem (rs : List FileRecord) (d : FileData) :
    updateLeaf rs (updateLeaf rs d) = updateLeaf rs d := by
  cases h : rs.find? (fun r => decide (r.path = d.fullPath)) with
  | none => simp [updateLeaf, h]
  | some r => simp [updateLeaf, h]

/-- C4: the progress-tick update is idempotent — applying the same flat
record snapshot twice produces exactly the tree obtained by applying it
once, for every tree and every snapshot. -/
theorem update_idempotent (rs : List FileRecord) (f : List FSNode) :
    updateForest rs (updateForest rs f) = updateForest rs f := by
  refine forestInd
    (P := fun t => updateNode rs (updateNode rs t) = updateNode rs t)
    (Q := fun ts => updateForest rs (updateForest rs ts) = updateForest rs ts)
    ?_ ?_ ?_ ?_ f
  · intro d; simp [updateNode, updateLeaf_idem]
  · intro q ts ih; simp [updateNode, ih]
  · rfl
  · intro c ts ihc ihts; simp [updateForest, ihc, ihts]

theorem updateLeaf_cons_ne (r : FileRecord) (rs : List FileRecord) (d : FileData)
    (h : r.path ≠ d.fullPath) :
    updateLeaf (r :: rs) d = updateLeaf rs d := by
  have hfa : (fun x => decide (x.path = d.fullPath)) r = false := by
    simp [h]
  simp only [updateLeaf, List.find?_cons, hfa]

theorem find_filter_eq (S : List (List String)) (q : List String) (hq : q ∈ S)
    (rs : List FileRecord) :
    rs.find? (fun r => decide (r.path = q))
      = (rs.filter (fun r => decide (r.path ∈ S))).find? (fun r => decide (r.path = q)) := by
  induction rs with
  | nil => rfl
  | cons r rs ih =>
      by_cases hr : r.path = q
      · have hrS : r.path ∈ S := hr ▸ hq
        simp [List.filter_cons, List.find?_cons, hr, hrS, hq]
      · by_cases hrS : r.path ∈ S
        · simp [List.filter_cons, List.find?_cons, hr, hrS, ih]
        · simp [List.filter_cons, List.find?_cons, hr, hrS, ih]

theorem updateLeaf_filter (S : List (List String)) (rs : List FileRecord)
    (d : FileData) (hd : d.fullPath ∈ S) :
    updateLeaf rs d = updateLeaf (rs.filter (fun r => decide (r.path ∈ S))) d := by
  simp only [updateLeaf, find_filter_eq S d.fullPath hd rs]

theorem updateForest_filter (S : List (List String)) (rs : List FileRecord)
    (f : List FSNode) (h : ∀ l ∈ forestLeaves f, l.fullPath ∈ S) :
    updateForest rs f = updateForest (rs.filter (fun r => decide (r.path ∈ S))) f := by
  refine forestInd
    (P := fun t => (∀ l ∈ nodeLeaves t, l.fullPath ∈ S) →
      updateNode rs t = updateNode (rs.filter (fun r => decide (r.path ∈ S))) t)
    (Q := fun ts => (∀ l ∈ forestLeaves ts, l.fullPath ∈ S) →
      updateForest rs ts = updateForest (rs.filter (fun r => decide (r.path ∈ S))) ts)
    ?_ ?_ ?_ ?_ f h
  · intro d hl
    have hd := hl d (by simp [nodeLeaves])
    simp [updateNode, ← updateLeaf_filter S rs d hd]
  · intro q ts ih hl
    simp only [nodeLeaves] at hl
    simp [updateNode, ih hl]
  · intro _; rfl
  · intro c ts ihc ihts hl
    have hc : ∀ l ∈ nodeLeaves c, l.fullPath ∈ S := fun l hlm =>
      hl l (by simp [forestLeaves, hlm])
    have hts : ∀ l ∈ forestLeaves ts, l.fullPath ∈ S := fun l hlm =>
      hl l (by simp [forestLeaves, hlm])
    simp [updateForest, ihc hc, ihts hts]

/-- C6: every record of a progress tick whose path is not a leaf path of
the tree is silently dropped, wherever it sits in the snapshot — the
update equals the update of the snapshot with all unknown records
filtered out, and deleting one unknown record from any position leaves
the result unchanged while the surrounding known records still apply;
the update interface has no error channel, so nothing is surfaced. -/
theorem update_ignores_unknown (f : List FSNode) :
    (∀ rs : List FileRecord,
      updateForest rs f
        = updateForest (rs.filter (fun r => decide (r.path ∈ forestLeafPaths f))) f)
  ∧ (∀ (r : FileRecord) (rs1 rs2 : List FileRecord), r.path ∉ forestLeafPaths f →
      updateForest (rs1 ++ r :: rs2) f = updateForest (rs1 ++ rs2) f) := by
  have hfa : ∀ rs : List FileRecord,
      updateForest rs f
        = updateForest (rs.filter (fun r => decide (r.path ∈ forestLeafPaths f))) f := by
    intro rs
    apply updateForest_filter
    intro l hl
    simpa [forestLeafPaths] using List.mem_map_of_mem (fun x => x.fullPath) hl
  refine ⟨hfa, ?_⟩
  intro r rs1 rs2 hr
  rw [hfa (rs1 ++ r :: rs2), hfa (rs1 ++ rs2)]
  congr 1
  simp [List.filter_append, List.filter_cons, hr]

/-- Witness for C6: an unknown-path record sitting after a known record in
the snapshot is dropped. -/
theorem update_ignores_unknown_witness :
    updateForest
      ([{ path := ["a", "b.txt"], size := 100, bytesCompleted := 60,
          wanted := true, priority := FilePriority.normal }]
        ++ { path := ["zz"], size := 1, bytesCompleted := 1, wanted := true,
             priority := FilePriority.high } :: [])
      exampleForest
    = updateForest
      ([{ path := ["a", "b.txt"], size := 100, bytesCompleted := 60,
          wanted := true, priority := FilePriority.normal }] ++ [])
      exampleForest :=
  (update_ignores_unknown exampleForest).2
    { path := ["zz"], size := 1, bytesCompleted := 1, wanted := true,
      priority := FilePriority.high }
    [{ path := ["a", "b.txt"], size := 100, bytesCompleted := 60,
       wanted := true, priority := FilePriority.normal }]
    [] (by decide)

theorem findEntryNode_none_iff (p : List String) (t : FSNode) :
    findEntryNode p t = none ↔ p ∉ nodePaths t := by
  have h := (findEntry_char p [t]).1
  simp only [forestPaths, List.append_nil] at h
  cases hfe : findEntryNode p t with
  | some n =>
      have h1 : findEntryForest p [t] = some n := by
        simp [findEntryForest, hfe]
      rw [h1] at h
      constructor
      · intro hc; exact absurd hc (by simp)
      · intro hc
        exact absurd (h.mpr hc) (by simp)
  | none =>
      have h1 : findEntryForest p [t] = none := by
        simp [findEntryForest, hfe]
      rw [h1] at h
      simpa using h

theorem childIndexes_empty_node (p : List String) (t : FSNode)
    (h : ∀ r ∈ nodePaths t, r ≠ p) : childIndexesNode p t = [] := by
  refine nodeInd
    (P := fun t => (∀ r ∈ nodePaths t, r ≠ p) → childIndexesNode p t = [])
    (Q := fun ts => (∀ r ∈ forestPaths ts, r ≠ p) → childIndexesForest p ts = [])
    ?_ ?_ ?_ ?_ t h
  · intro d hr
    have : d.fullPath ≠ p := hr d.fullPath (by simp [nodePaths])
    simp [childIndexesNode, this]
  · intro q ts ih hr
    have hq : q ≠ p := hr q (by simp [nodePaths])
    have hts : ∀ r ∈ forestPaths ts, r ≠ p := fun r hrm =>
      hr r (by simp [nodePaths, hrm])
    simp [childIndexesNode, hq, ih hts]
  · intro _; rfl
  · intro c ts ihc ihts hr
    have hc : ∀ r ∈ nodePaths c, r ≠ p := fun r hrm =>
      hr r (by simp [forestPaths, hrm])
    have hts : ∀ r ∈ forestPaths ts, r ≠ p := fun r hrm =>
      hr r (by simp [forestPaths, hrm])
    simp [childIndexesForest, ihc hc, ihts hts]

theorem childIndexes_empty_forest (p : List String) (ts : List FSNode)
    (h : ∀ r ∈ forestPaths ts, r ≠ p) : childIndexesForest p ts = [] := by
  induction ts with
  | nil => rfl
  | cons c ts ih =>
      have hc : ∀ r ∈ nodePaths c, r ≠ p := fun r hrm =>
        h r (by simp [forestPaths, hrm])
      have hts : ∀ r ∈ forestPaths ts, r ≠ p := fun r hrm =>
        h r (by simp [forestPaths, hrm])
      simp [childIndexesForest, childIndexes_empty_node p c hc, ih hts]

/-- C8: for a leaf path present in the tree (with its duplicate-free path
set, a parse invariant), `getChildFilesIndexes` returns exactly the
singleton of that leaf's stable index. -/
theorem childIndexes_leaf_singleton (f : List FSNode) (p : List String) (d : FileData)
    (hnd : (forestPaths f).Nodup)
    (hfind : findEntryForest p f = some (FSNode.file d)) :
    childIndexesForest p f = [d.index] := by
  refine forestInd
    (P := fun t => (nodePaths t).Nodup →
      findEntryNode p t = some (FSNode.file d) → childIndexesNode p t = [d.index])
    (Q := fun ts => (forestPaths ts).Nodup →
      findEntryForest p ts = some (FSNode.file d) → childIndexesForest p ts = [d.index])
    ?_ ?_ ?_ ?_ f hnd hfind
  · intro d0 _ hfe
    by_cases he : d0.fullPath = p
    · have h1 : FSNode.file d0 = FSNode.file d := by
        simp only [findEntryNode, he] at hfe
        rw [if_true] at hfe
        injection hfe
      have h2 : d0 = d := by injection h1
      subst h2
      simp [childIndexesNode, he]
    · simp [findEntryNode, he] at hfe
  · intro q ts ih hnd hfe
    by_cases he : q = p
    · simp only [findEntryNode, he] at hfe
      rw [if_true] at hfe
      exact absurd hfe (by simp)
    · simp only [findEntryNode, if_neg he] at hfe
      simp only [nodePaths, List.nodup_cons] at hnd
      simp [childIndexesNode, he, ih hnd.2 hfe]
  · intro _ hfe
    simp [findEntryForest] at hfe
  · intro c ts ihc ihts hnd hfe
    simp only [forestPaths, List.nodup_append] at hnd
    obtain ⟨hnd1, hnd2, hdisj⟩ := hnd
    cases hm : findEntryNode p c with
    | some m =>
        have hm' : m = FSNode.file d := by
          simp only [findEntryForest, hm, Option.some.injEq] at hfe
          exact hfe
        subst hm'
        have hpm : p ∈ nodePaths c := by
          by_contra hc
          rw [(findEntryNode_none_iff p c).mpr hc] at hm
          exact absurd hm (by simp)
        have hnot : p ∉ forestPaths ts := hdisj hpm
        have hrest : childIndexesForest p ts = [] :=
          childIndexes_empty_forest p ts (fun r hr hc => hnot (hc ▸ hr))
        simp [childIndexesForest, ihc hnd1 hm, hrest]
    | none =>
        have hpm : p ∉ nodePaths c := (findEntryNode_none_iff p c).mp hm
        have h1 : childIndexesNode p c = [] :=
          childIndexes_empty_node p c (fun r hr hc => hpm (hc ▸ hr))
        simp only [findEntryForest, hm] at hfe
        simp [childIndexesForest, h1, ihts hnd2 hfe]

/-- Witness for C8: the leaf path `a/b.txt` of the example yields the
singleton of index 0. -/
theorem childIndexes_leaf_singleton_witness :
    childIndexesForest ["a", "b.txt"] exampleForest = [exampleLeafB.index] :=
  childIndexes_leaf_singleton exampleForest ["a", "b.txt"] exampleLeafB
    (by decide) rfl

theorem allIndexes_renameAll (old : List String) (name : String) (cs : List FSNode) :
    allIndexesForest (renameAllForest old name cs) = allIndexesForest cs := by
  refine forestInd
    (P := fun t => allIndexesNode (renameAllNode old name t) = allIndexesNode t)
    (Q := fun ts => allIndexesForest (renameAllForest old name ts) = allIndexesForest ts)
    ?_ ?_ ?_ ?_ cs
  · intro d; simp [renameAllNode, allIndexesNode]
  · intro q ts ih; simpa [renameAllNode, allIndexesNode] using ih
  · rfl
  · intro c ts ihc ihts; simp [renameAllForest, allIndexesForest, ihc, ihts]

theorem allIndexes_updatePath (old : List String) (name : String) (cs : List FSNode) :
    allIndexesForest (updatePathForest old name cs) = allIndexesForest cs := by
  refine forestInd
    (P := fun t => allIndexesNode (updatePathNode old name t) = allIndexesNode t)
    (Q := fun ts => allIndexesForest (updatePathForest old name ts) = allIndexesForest ts)
    ?_ ?_ ?_ ?_ cs
  · intro d
    by_cases he : d.fullPath = old <;> simp [updatePathNode, he, allIndexesNode]
  · intro q ts ih
    by_cases he : q = old
    · subst he
      simp [updatePathNode, allIndexesNode, allIndexes_renameAll]
    · simpa [updatePathNode, he, allIndexesNode] using ih
  · rfl
  · intro c ts ihc ihts; simp [updatePathForest, allIndexesForest, ihc, ihts]

theorem substPath_self (old : List String) (name : String) :
    substPath old name old = old.dropLast ++ [name] := by
  simp [substPath]

theorem newPath_substPath (old : List String) (name : String) (r : List String) :
    (old.dropLast ++ [name]) <+: substPath old name r := by
  refine ⟨List.drop old.length r, ?_⟩
  simp [substPath]

theorem childIndexes_stable_node (p old : List String) (name : String)
    (h1 : ¬ old <+: p) (h2 : ¬ (old.dropLast ++ [name]) <+: p) (t : FSNode)
    (hw : nodeConsistent t = true) :
    childIndexesNode p (updatePathNode old name t) = childIndexesNode p t := by
  refine nodeInd
    (P := fun t => nodeConsistent t = true →
      childIndexesNode p (updatePathNode old name t) = childIndexesNode p t)
    (Q := fun ts => ∀ q, forestConsistent q ts = true →
      childIndexesForest p (updatePathForest old name ts) = childIndexesForest p ts)
    ?_ ?_ ?_ ?_ t hw
  · intro d _
    by_cases he : d.fullPath = old
    · have hop : old ≠ p := fun hc => h1 (hc ▸ List.prefix_rfl)
      have hnp : old.dropLast ++ [name] ≠ p := fun hc => h2 (hc ▸ List.prefix_rfl)
      simp [updatePathNode, he, childIndexesNode, substPath_self, hnp, hop]
    · simp [updatePathNode, he]
  · intro q cs ih hw
    have hcon : forestConsistent q cs = true := by simpa [nodeConsistent] using hw
    by_cases he : q = old
    · subst he
      have hred : updatePathNode q name (FSNode.dir q cs)
          = FSNode.dir (substPath q name q) (renameAllForest q name cs) := by
        simp [updatePathNode]
      rw [hred]
      have hnp : substPath q name q ≠ p := by
        rw [substPath_self]
        exact fun hc => h2 (hc ▸ List.prefix_rfl)
      have hqp : q ≠ p := fun hc => h1 (hc ▸ List.prefix_rfl)
      have hleft : childIndexesForest p (renameAllForest q name cs) = [] := by
        apply childIndexes_empty_forest
        intro r hr hc
        rw [renameAll_paths] at hr
        obtain ⟨r0, _, rfl⟩ := List.mem_map.mp hr
        exact h2 (hc ▸ newPath_substPath q name r0)
      have hright : childIndexesForest p cs = [] := by
        apply childIndexes_empty_forest
        intro r hr hc
        exact h1 (hc ▸ (forestPaths_extend q cs hcon r hr).1)
      simp [childIndexesNode, hnp, hqp, hleft, hright]
    · have hred : updatePathNode old name (FSNode.dir q cs)
          = FSNode.dir q (updatePathForest old name cs) := by
        simp [updatePathNode, he]
      rw [hred]
      by_cases hqp : q = p
      · subst hqp
        simp [childIndexesNode, allIndexes_updatePath]
      · simp [childIndexesNode, hqp, ih q hcon]
  · intro q _; rfl
  · intro c ts ihc ihts q hw
    simp only [forestConsistent, Bool.and_eq_true, decide_eq_true_eq] at hw
    obtain ⟨⟨⟨hlen, hqc⟩, hcon⟩, hrest⟩ := hw
    simp [updatePathForest, childIndexesForest, ihc hcon, ihts q hrest]

theorem updatePath_indexes (old : List String) (name : String) (f : List FSNode) :
    (forestLeaves (updatePathForest old name f)).map (fun l => l.index)
      = (forestLeaves f).map (fun l => l.index) := by
  refine forestInd
    (P := fun t => (nodeLeaves (updatePathNode old name t)).map (fun l => l.index)
      = (nodeLeaves t).map (fun l => l.index))
    (Q := fun ts => (forestLeaves (updatePathForest old name ts)).map (fun l => l.index)
      = (forestLeaves ts).map (fun l => l.index))
    ?_ ?_ ?_ ?_ f
  · intro d
    by_cases he : d.fullPath = old <;> simp [updatePathNode, he, nodeLeaves]
  · intro q ts ih
    by_cases he : q = old
    · subst he
      simp [updatePathNode, nodeLeaves, renameAll_leaves, Function.comp]
    · simpa [updatePathNode, he, nodeLeaves] using ih
  · rfl
  · intro c ts ihc ihts; simp [updatePathForest, forestLeaves, ihc, ihts]

/-- C5 counterexample: in the two-sibling tree, renaming directory `b` —
a sibling subtree that does not contain the leaf path `a/x` — to the
terminal name `a` changes `getChildFilesIndexes("a/x")` from `[0]` to
`[0, 1]`, because the renamed subtree collides with the leaf's own path. -/
theorem childIndexes_rename_cex :
    rootsWf cexForest = true
  ∧ findEntryForest ["a", "x"] cexForest = some (FSNode.file cexLeafA)
  ∧ ¬ ["b"] <+: ["a", "x"]
  ∧ childIndexesForest ["a", "x"] (updatePathForest ["b"] "a" cexForest)
      ≠ childIndexesForest ["a", "x"] cexForest := by
  refine ⟨by decide, rfl, by decide, by decide⟩

/-- C5 (amended): leaf indexes are assigned at parse time and never change
on rename; and `getChildFilesIndexes` of a leaf path `p` is unchanged by a
rename of a subtree that does not contain `p`, provided the renamed
subtree's new path does not collide onto `p` (is not a prefix of `p`). -/
theorem childIndexes_rename_stable (f : List FSNode) (p old : List String)
    (name : String) (d : FileData)
    (hwf : rootsWf f = true)
    (hleaf : findEntryForest p f = some (FSNode.file d))
    (h1 : ¬ old <+: p) (h2 : ¬ (old.dropLast ++ [name]) <+: p) :
    childIndexesForest p (updatePathForest old name f) = childIndexesForest p f
  ∧ (forestLeaves (updatePathForest old name f)).map (fun l => l.index)
      = (forestLeaves f).map (fun l => l.index) := by
  have haux : ∀ g : List FSNode, rootsWf g = true →
      childIndexesForest p (updatePathForest old name g) = childIndexesForest p g := by
    intro g
    induction g with
    | nil => intro _; rfl
    | cons c cs ih =>
        intro hg
        simp only [rootsWf, Bool.and_eq_true, decide_eq_true_eq] at hg
        obtain ⟨⟨hlen, hcon⟩, hrest⟩ := hg
        simp [updatePathForest, childIndexesForest,
          childIndexes_stable_node p old name h1 h2 c hcon, ih hrest]
  exact ⟨haux f hwf, updatePath_indexes old name f⟩

/-- Witness for the amended C5: renaming `b` to the non-colliding name `c`
leaves the index set of the leaf path `a/x` unchanged. -/
theorem childIndexes_rename_stable_witness :
    childIndexesForest ["a", "x"] (updatePathForest ["b"] "c" cexForest)
      = childIndexesForest ["a", "x"] cexForest :=
  (childIndexes_rename_stable cexForest ["a", "x"] ["b"] "c" cexLeafA
    (by decide) rfl (by decide) (by decide)).1

/-- C9 counterexample: `"__proto__"` is not among the seven registered
action names, yet `run("__proto__")` on a concrete controller does not
complete silently — the `in` guard finds the name on the prototype chain
of the plain-object `methodMap`, the property read yields the non-callable
`Object.prototype`, and the call rejects with a TypeError. -/
theorem run_dispatch_cex :
    "__proto__" ∉ Actions.map (fun a => a.name)
  ∧ ActionController.run
      { selectedTorrents := [5], torrents := [5], calls := [] } "__proto__"
      { location := "", move := false } = RunOutcome.typeError :=
  ⟨by decide, rfl⟩

/-- C9 (amended): `ActionController.run` is a silent no-op (no client
call, no state change, no error) for every string that is neither one of
the seven registered names nor a property name inherited from
`Object.prototype`; an inherited name passes the guard and has the
inherited value invoked — completing without error, client call or state
change when that value is callable on the forwarded arguments, and
rejecting with a TypeError for `__proto__`, `__defineGetter__` and
`__defineSetter__`; and for each registered name `run` invokes exactly
the handler the constructor registered: the simple torrent actions, queue
moves, verify and reannounce map to `client.torrentAction` with their
wire names, and `changeDirectory` maps to `client.torrentMove`. -/
theorem run_dispatch :
    (∀ m, m ∉ Actions.map (fun a => a.name) → m ∉ objectProtoProps →
      ∀ ac args, ActionController.run ac m args = RunOutcome.ok ac)
  ∧ (∀ m, m ∈ objectProtoProps → m ∉ protoTypeErrorProps →
      ∀ ac args, ActionController.run ac m args = RunOutcome.ok ac)
  ∧ (∀ m, m ∈ protoTypeErrorProps →
      ∀ ac args, ActionController.run ac m args = RunOutcome.typeError)
  ∧ (∀ (ac : ActionController) args,
      ActionController.run ac "resume" args
        = RunOutcome.ok (clientTorrentAction "torrent-start" ac))
  ∧ (∀ (ac : ActionController) args,
      ActionController.run ac "pause" args
        = RunOutcome.ok (clientTorrentAction "torrent-stop" ac))
  ∧ (∀ (ac : ActionController) args,
      ActionController.run ac "moveQueueUp" args
        = RunOutcome.ok (clientTorrentAction "queue-move-up" ac))
  ∧ (∀ (ac : ActionController) args,
      ActionController.run ac "moveQueueDown" args
        = RunOutcome.ok (clientTorrentAction "queue-move-down" ac))
  ∧ (∀ (ac : ActionController) (args : ActionArgs),
      ActionController.run ac "changeDirectory" args
        = RunOutcome.ok (clientTorrentMove args.location args.move ac))
  ∧ (∀ (ac : ActionController) args,
      ActionController.run ac "verify" args
        = RunOutcome.ok (clientTorrentAction "torrent-verify" ac))
  ∧ (∀ (ac : ActionController) args,
      ActionController.run ac "reannounce" args
        = RunOutcome.ok (clientTorrentAction "torrent-reannounce" ac)) := by
  refine ⟨?_, ?_, ?_, fun ac args => rfl, fun ac args => rfl, fun ac args => rfl,
    fun ac args => rfl, fun ac args => rfl, fun ac args => rfl, fun ac args => rfl⟩
  · intro m hm hmp ac args
    have hm' : m ≠ "resume" ∧ m ≠ "pause" ∧ m ≠ "moveQueueUp" ∧ m ≠ "moveQueueDown"
        ∧ m ≠ "changeDirectory" ∧ m ≠ "verify" ∧ m ≠ "reannounce" := by
      simpa [Actions, mapSimpleAction, not_or] using hm
    obtain ⟨h1, h2, h3, h4, h5, h6, h7⟩ := hm'
    have hlook : lookupMethod m methodMap = none := by
      simp [methodMap, Actions, mapSimpleAction, lookupMethod,
        Ne.symm h1, Ne.symm h2, Ne.symm h3, Ne.symm h4, Ne.symm h5, Ne.symm h6, Ne.symm h7]
    simp [ActionController.run, hlook, hmp]
  · intro m hmp hnt ac args
    simp only [objectProtoProps, List.mem_cons, List.not_mem_nil, or_false] at hmp
    rcases hmp with rfl | rfl | rfl | rfl | rfl | rfl | rfl | rfl | rfl | rfl | rfl | rfl
    all_goals first
      | rfl
      | exact absurd (by decide) hnt
  · intro m hmp ac args
    simp only [protoTypeErrorProps, List.mem_cons, List.not_mem_nil, or_false] at hmp
    rcases hmp with rfl | rfl | rfl
    all_goals rfl

/-- Witness for the amended C9: a name that is neither registered nor
inherited leaves a concrete controller untouched, and a registered name
issues exactly its client call. -/
theorem run_dispatch_witness :
    ActionController.run
      { selectedTorrents := [5], torrents := [5], calls := [] } "foo"
      { location := "", move := false }
      = RunOutcome.ok { selectedTorrents := [5], torrents := [5], calls := [] }
  ∧ ActionController.run
      { selectedTorrents := [5], torrents := [5], calls := [] } "toString"
      { location := "", move := false }
      = RunOutcome.ok { selectedTorrents := [5], torrents := [5], calls := [] } :=
  ⟨run_dispatch.1 "foo" (by decide) (by decide)
    { selectedTorrents := [5], torrents := [5], calls := [] }
    { location := "", move := false },
   run_dispatch.2.1 "toString" (by decide) (by decide)
    { selectedTorrents := [5], torrents := [5], calls := [] }
    { location := "", move := false }⟩

theorem setAdd_nodup (s : List Nat) (x : Nat) (h : s.Nodup) : (setAdd s x).Nodup := by
  by_cases hx : x ∈ s
  · simpa [setAdd, hx] using h
  · simpa [setAdd, hx, List.nodup_append] using h

theorem setAdd_mem (s : List Nat) (x y : Nat) : y ∈ setAdd s x ↔ y ∈ s ∨ y = x := by
  by_cases hx : x ∈ s
  · simp only [setAdd, if_pos hx]
    exact ⟨Or.inl, fun h => h.elim id (fun he => he ▸ hx)⟩
  · simp [setAdd, hx]

theorem foldl_setAdd_nodup (l s : List Nat) (h : s.Nodup) :
    (l.foldl setAdd s).Nodup := by
  induction l generalizing s with
  | nil => exact h
  | cons a l ih => exact ih _ (setAdd_nodup s a h)

theorem foldl_setAdd_mem (l s : List Nat) (y : Nat) :
    y ∈ l.foldl setAdd s ↔ y ∈ s ∨ y ∈ l := by
  induction l generalizing s with
  | nil => simp
  | cons a l ih => simp [List.foldl_cons, ih, setAdd_mem, or_assoc]

theorem fold_union_nodup (L : List (List Nat)) (s : List Nat) (h : s.Nodup) :
    (L.foldl (fun s cur => cur.foldl setAdd s) s).Nodup := by
  induction L generalizing s with
  | nil => exact h
  | cons l L ih => exact ih _ (foldl_setAdd_nodup l s h)

theorem fold_union_mem (L : List (List Nat)) (s : List Nat) (y : Nat) :
    y ∈ L.foldl (fun s cur => cur.foldl setAdd s) s ↔ y ∈ s ∨ ∃ l ∈ L, y ∈ l := by
  induction L generalizing s with
  | nil => simp
  | cons l L ih =>
      simp only [List.foldl_cons, ih, foldl_setAdd_mem, List.mem_cons]
      constructor
      · rintro (⟨h1 | h1⟩ | ⟨l0, hl0, h1⟩)
        · exact Or.inl h1
        · exact Or.inr ⟨l, Or.inl rfl, h1⟩
        · exact Or.inr ⟨l0, Or.inr hl0, h1⟩
      · rintro (h1 | ⟨l0, hl0 | hl0, h1⟩)
        · exact Or.inl (Or.inl h1)
        · exact Or.inl (Or.inr (hl0 ▸ h1))
        · exact Or.inr ⟨l0, hl0, h1⟩

/-- C10: the bulk-priority payload is a duplicate-free union — for every
selection the file-id list sent to the daemon contains each index at most
once, and contains an index exactly when some selected path covers it,
even when selected paths overlap. -/
theorem setPriority_payload (sel : List (List String)) (f : List FSNode) :
    (collectFileIds sel f).Nodup
  ∧ ∀ i, i ∈ collectFileIds sel f ↔ ∃ p ∈ sel, i ∈ childIndexesForest p f := by
  constructor
  · exact fold_union_nodup _ [] (by simp)
  · intro i
    rw [collectFileIds, fold_union_mem]
    simp
